import Mathlib

/-!
Resource ledger of the task driver layer (`client/driver/driver.go`).

Embedding of `CreatedResources` and its four methods `Add`, `Remove`, `Copy`
and `Merge`, at two levels.

**Ledgers as values** (`Driver.CreatedResources`)

* A Go `map[string][]string` that is not nil is an association list with each
  kind at most once (`AList`); `m[k] = v` is `AList.insert`, `delete(m, k)` is
  `AList.erase`, `v, ok := m[k]` is `AList.lookup`, and `range m` visits
  `AList.entries` in the order they happen to be stored.
* The field `Resources` is `Option` of such a map: `none` is the nil map.
* A `*CreatedResources` that may be nil is `Option CreatedResources`.
* A value of type `[]string` is the list of its elements.
* A call that may stop with a runtime failure returns `Option`: `none` is the
  failure (for `Merge`: assignment to an entry of a nil map).

At this level every list is a value of its own: an `append` yields a new list
and an assignment stores one. It describes what a call returns and which
branch it takes, and what it does to a receiver each of whose lists has an
array to itself.

**Ledgers in storage** (`Driver.Store`)

A `[]string` is a position, a length and a capacity over a memory that all
ledgers share, and the methods are transformers of the whole world: `append`
writes into the array of its first argument when the capacity suffices, and
`Merge` stores the slice of the other ledger itself. This level describes what
a call does when lists of different kinds or of different ledgers lie in the
same array, and what a sequence of calls on several ledgers does. The
predicates `ownsArrays` and `mergeReady` say that the lists involved in a call
lie in pairwise different arrays.

**Drivers and the task environment**

`BuiltinDrivers`, `NewDriver` and `GetTaskEnv`, over a model of the packages
that the file imports.
-/

set_option linter.dupNamespace false

namespace Driver

/-- A non-nil `map[string][]string`. -/
abbrev ResourceMap := AList (fun _ : String => List String)

/-- The struct `CreatedResources`; `Resources = none` is the nil map. -/
structure CreatedResources where
  Resources : Option ResourceMap

namespace CreatedResources

/-- The expression `r.Resources[k]` with the comma-ok form: `none` when the
kind has no entry (always so for a nil map). -/
def lookup (r : CreatedResources) (k : String) : Option (List String) :=
  match r.Resources with
  | none => none
  | some m => m.lookup k

/-- The expression `r.Resources[k]` read as a value: the zero value (an empty
list) when the kind has no entry or the map is nil. -/
def index (r : CreatedResources) (k : String) : List String :=
  (r.lookup k).getD []

end CreatedResources

/-- Constructor `NewCreatedResources`: a ledger with an empty, non-nil map. -/
def NewCreatedResources : CreatedResources :=
  ⟨some ∅⟩

/-- The loop `for _, item := range existing { if item == v { return } }` of
`Add`, and the inner loop of `Merge`: whether some element equals `v`. -/
def containsItem (v : String) : List String → Bool
  | [] => false
  | item :: rest => if item = v then true else containsItem v rest

/-- The loop `for i, item := range haystack { if item == needle ... }` of
`Remove`: the first index holding `needle`, if any. -/
def firstIndex (needle : String) : List String → Option Nat
  | [] => none
  | item :: rest =>
    if item = needle then some 0 else (firstIndex needle rest).map (· + 1)

namespace CreatedResources

/-- Method `Add`: add a new resource if it does not already exist. -/
def Add (r : CreatedResources) (k v : String) : CreatedResources :=
  match r.Resources with
  | none => ⟨some (AList.singleton k [v])⟩
  | some m =>
    match m.lookup k with
    | none => ⟨some (m.insert k [v])⟩
    | some existing =>
      if containsItem v existing then r
      else ⟨some (m.insert k (existing ++ [v]))⟩

/-- Method `Remove`: remove a resource; the returned flag is true if it was removed.
The hit branch assigns `append(haystack[:i], haystack[i+1:]...)` to the kind
and then deletes the kind when the assigned list is empty. -/
def Remove (r : CreatedResources) (k needle : String) : CreatedResources × Bool :=
  match r.Resources with
  | none => (r, false)
  | some m =>
    let haystack := (m.lookup k).getD []
    match firstIndex needle haystack with
    | none => (r, false)
    | some i =>
      let m1 := m.insert k (haystack.take i ++ haystack.drop (i + 1))
      if ((m1.lookup k).getD []).length = 0 then (⟨some (m1.erase k)⟩, true)
      else (⟨some m1⟩, true)

/-- Method `Copy`: nil for a nil receiver; otherwise a fresh non-nil map that receives
every entry of the receiver (none when the receiver's map is nil). -/
def Copy : Option CreatedResources → Option CreatedResources
  | none => none
  | some r =>
    let entries : List (Sigma fun _ : String => List String) :=
      match r.Resources with
      | none => []
      | some m => m.entries
    some ⟨some (entries.foldl (fun newr e => newr.insert e.1 e.2) ∅)⟩

/-- Body of the `OUTER` loop of `Merge` for one `item`: skip it when the list
now stored under `k` holds it, append it otherwise. -/
def mergeItem (k : String) (m : ResourceMap) (item : String) : ResourceMap :=
  if containsItem item ((m.lookup k).getD []) then m
  else m.insert k ((m.lookup k).getD [] ++ [item])

/-- Body of `for k, v := range o.Resources` in `Merge`. The test
`len(r.Resources[k]) == 0` reads the map and never fails; the assignments
fail on a nil map. On a nil map the test is always true, so the first
branch is the one taken. -/
def mergeKind (res : Option ResourceMap) (k : String) (v : List String) :
    Option (Option ResourceMap) :=
  match res with
  | none => none
  | some m =>
    if ((m.lookup k).getD []).length = 0 then some (some (m.insert k v))
    else some (some (v.foldl (mergeItem k) m))

/-- The loop of `Merge` over the entries of `o.Resources` in the order given. -/
def mergeLoop : List (Sigma fun _ : String => List String) → Option ResourceMap →
    Option (Option ResourceMap)
  | [], res => some res
  | e :: rest, res =>
    match mergeKind res e.1 e.2 with
    | none => none
    | some res1 => mergeLoop rest res1

/-- Method `Merge`: merge another ledger into this one; a nil `o` is a no-op. The
result is `none` when the call stops with a runtime failure. -/
def Merge (r : CreatedResources) (o : Option CreatedResources) : Option CreatedResources :=
  match o with
  | none => some r
  | some other =>
    let entries : List (Sigma fun _ : String => List String) :=
      match other.Resources with
      | none => []
      | some m => m.entries
    (mergeLoop entries r.Resources).map fun res => ⟨res⟩

end CreatedResources

/-- Ledger built from a list of `(kind, ids)` pairs, later pairs first. -/
def ofList (l : List (String × List String)) : CreatedResources :=
  ⟨some (l.foldr (fun e m => m.insert e.1 e.2) ∅)⟩

/-- The list under a kind after the `OUTER` loop has run over `v`, starting
from the list `cur`. -/
def mergeList (cur v : List String) : List String :=
  v.foldl (fun c item => if containsItem item c then c else c ++ [item]) cur

/-- The list under a kind after one round of the loop of `Merge`, from what
the kind held before (`none`: no entry). -/
def mergeVal (old : Option (List String)) (v : List String) : List String :=
  if (old.getD []).length = 0 then v else mergeList (old.getD []) v

/-! ## Storage

`Merge` stores the slice `v` of the other ledger itself (`r.Resources[k] = v`)
and `Remove` rebuilds a list inside the array it already occupies
(`append(haystack[:i], haystack[i+1:]...)`). What a sequence of calls on
several ledgers does therefore depends on which lists occupy the same array.
This section embeds the same four methods with slices as the runtime holds
them: a position in memory, a length and a capacity. -/

namespace Store

/-- A `[]string` value: position of its first element, length, capacity. -/
structure Slice where
  ptr : Nat
  len : Nat
  cap : Nat
  deriving DecidableEq

/-- The nil slice, the zero value read from a map for a kind without entry. -/
def nilSlice : Slice := ⟨0, 0, 0⟩

/-- All arrays allocated so far, laid end to end. -/
abbrev Memory := List String

/-- The elements of a slice. -/
def read (mem : Memory) (s : Slice) : List String :=
  (mem.drop s.ptr).take s.len

/-- Store `items` in consecutive cells from position `p` on. -/
def writeAt (mem : Memory) (p : Nat) : List String → Memory
  | [] => mem
  | x :: xs => writeAt (mem.set p x) (p + 1) xs

/-- A fresh array of `cap` cells (at least as many as `items`) that starts
with `items`; the slice covers `items`. -/
def alloc (mem : Memory) (items : List String) (cap : Nat) : Memory × Slice :=
  (mem ++ items ++ List.replicate (cap - items.length) "",
   ⟨mem.length, items.length, max cap items.length⟩)

/-- Capacity of the array that `append` allocates when the old one, of `old`
cells, cannot hold `needed` elements, as the runtime chooses it for short
arrays: twice the old capacity, or what is needed when that is more. -/
def growCap (old needed : Nat) : Nat :=
  if needed > 2 * old then needed else 2 * old

/-- The builtin `append(s, items...)`: in place when the capacity of `s`
suffices, into a fresh array otherwise. The runtime that chooses the capacity
of the fresh array is not part of the sources; `grow` is that choice, from the
old capacity and the number of elements needed. -/
def append (grow : Nat → Nat → Nat) (mem : Memory) (s : Slice) (items : List String) :
    Memory × Slice :=
  if s.len + items.length ≤ s.cap then
    (writeAt mem (s.ptr + s.len) items, ⟨s.ptr, s.len + items.length, s.cap⟩)
  else alloc mem (read mem s ++ items) (grow s.cap (s.len + items.length))

/-- A non-nil `map[string][]string` whose values are slices. -/
abbrev SliceMap := AList (fun _ : String => Slice)

/-- The memory, the `Resources` field of every ledger allocated so far
(`none`: nil map), and the capacity that the runtime gives to an array that
`append` has to allocate. A `*CreatedResources` is a position in `ledgers`. -/
structure World where
  mem : Memory
  ledgers : List (Option SliceMap)
  grow : Nat → Nat → Nat

/-- The entry of ledger `r` for kind `k`, as a list; `none` without entry. -/
def World.lookup (w : World) (r : Nat) (k : String) : Option (List String) :=
  match w.ledgers.get? r with
  | some (some m) => (m.lookup k).map (read w.mem)
  | _ => none

/-- Constructor `NewCreatedResources`: one more ledger, with an empty non-nil map. -/
def NewCreatedResources (w : World) : World :=
  ⟨w.mem, w.ledgers ++ [some ∅], w.grow⟩

/-- Method `Add` on ledger `r`. The result is `none` when there is no ledger `r`. -/
def Add (w : World) (r : Nat) (k v : String) : Option World :=
  match w.ledgers.get? r with
  | none => none
  | some none =>
    let a := alloc w.mem [v] 1
    some ⟨a.1, w.ledgers.set r (some (AList.singleton k a.2)), w.grow⟩
  | some (some m) =>
    match m.lookup k with
    | none =>
      let a := alloc w.mem [v] 1
      some ⟨a.1, w.ledgers.set r (some (m.insert k a.2)), w.grow⟩
    | some existing =>
      if containsItem v (read w.mem existing) then some w
      else
        let a := append w.grow w.mem existing [v]
        some ⟨a.1, w.ledgers.set r (some (m.insert k a.2)), w.grow⟩

/-- Method `Remove` on ledger `r`. The result is `none` when there is no
ledger `r`. -/
def Remove (w : World) (r : Nat) (k needle : String) : Option (World × Bool) :=
  match w.ledgers.get? r with
  | none => none
  | some none => some (w, false)
  | some (some m) =>
    let haystack := (m.lookup k).getD nilSlice
    match firstIndex needle (read w.mem haystack) with
    | none => some (w, false)
    | some i =>
      let a := append w.grow w.mem ⟨haystack.ptr, i, haystack.cap⟩
        (read w.mem ⟨haystack.ptr + (i + 1), haystack.len - (i + 1), haystack.cap - (i + 1)⟩)
      let m1 := m.insert k a.2
      if ((m1.lookup k).getD nilSlice).len = 0 then
        some (⟨a.1, w.ledgers.set r (some (m1.erase k)), w.grow⟩, true)
      else some (⟨a.1, w.ledgers.set r (some m1), w.grow⟩, true)

/-- Body of the loop of `Copy` for one entry: `make`, `copy`, assignment. -/
def copyEntry (st : Memory × SliceMap) (e : Sigma fun _ : String => Slice) :
    Memory × SliceMap :=
  let a := alloc st.1 (List.replicate e.2.len "") e.2.len
  (writeAt a.1 a.2.ptr (read a.1 e.2), st.2.insert e.1 a.2)

/-- Method `Copy` on ledger `r`: one more ledger, returned with its position.
The result is `none` when there is no ledger `r`. -/
def Copy (w : World) (r : Nat) : Option (World × Nat) :=
  match w.ledgers.get? r with
  | none => none
  | some res =>
    let entries : List (Sigma fun _ : String => Slice) :=
      match res with
      | none => []
      | some m => m.entries
    let st := entries.foldl copyEntry (w.mem, ∅)
    some (⟨st.1, w.ledgers ++ [some st.2], w.grow⟩, w.ledgers.length)

/-- The `OUTER` loop of `Merge` over `v[j], v[j+1], ...` (`n` elements left);
each element is read when its turn comes. -/
def mergeItems (grow : Nat → Nat → Nat) (k : String) (v : Slice) :
    Nat → Nat → Memory × SliceMap → Memory × SliceMap
  | 0, _, st => st
  | n + 1, j, st =>
    let item := st.1.getD (v.ptr + j) ""
    let cur := (st.2.lookup k).getD nilSlice
    if containsItem item (read st.1 cur) then mergeItems grow k v n (j + 1) st
    else
      let a := append grow st.1 cur [item]
      mergeItems grow k v n (j + 1) (a.1, st.2.insert k a.2)

/-- Body of `for k, v := range o.Resources` in `Merge`; `none` is the failed
assignment to an entry of a nil map. -/
def mergeKind (grow : Nat → Nat → Nat) (st : Memory × Option SliceMap) (k : String)
    (v : Slice) : Option (Memory × Option SliceMap) :=
  match st.2 with
  | none => none
  | some m =>
    if ((m.lookup k).getD nilSlice).len = 0 then some (st.1, some (m.insert k v))
    else
      let st1 := mergeItems grow k v v.len 0 (st.1, m)
      some (st1.1, some st1.2)

/-- The loop of `Merge` over the entries of `o.Resources`. -/
def mergeLoop (grow : Nat → Nat → Nat) :
    List (Sigma fun _ : String => Slice) → Memory × Option SliceMap →
    Option (Memory × Option SliceMap)
  | [], st => some st
  | e :: rest, st =>
    match mergeKind grow st e.1 e.2 with
    | none => none
    | some st1 => mergeLoop grow rest st1

/-- Method `Merge` of ledger `o` (`none`: nil) into ledger `r`. The result is `none`
when the call fails or a named ledger does not exist. -/
def Merge (w : World) (r : Nat) (o : Option Nat) : Option World :=
  match w.ledgers.get? r with
  | none => none
  | some res =>
    match o with
    | none => some w
    | some j =>
      match w.ledgers.get? j with
      | none => none
      | some ores =>
        let entries : List (Sigma fun _ : String => Slice) :=
          match ores with
          | none => []
          | some m => m.entries
        (mergeLoop w.grow entries (w.mem, res)).map fun st =>
          ⟨st.1, w.ledgers.set r st.2, w.grow⟩

/-- One call of the API of the ledger. -/
inductive Call where
  | new
  | add (r : Nat) (k v : String)
  | remove (r : Nat) (k needle : String)
  | copy (r : Nat)
  | merge (r : Nat) (o : Option Nat)

/-- The world after one call. -/
def step (w : World) : Call → Option World
  | Call.new => some (NewCreatedResources w)
  | Call.add r k v => Add w r k v
  | Call.remove r k needle => (Remove w r k needle).map Prod.fst
  | Call.copy r => (Copy w r).map Prod.fst
  | Call.merge r o => Merge w r o

/-- The world after a sequence of calls, from the world without any ledger,
in which a grown array gets the capacity `growCap`. -/
def run (calls : List Call) : Option World :=
  calls.foldl (fun w c => w.bind fun w1 => step w1 c) (some ⟨[], [], growCap⟩)

/-! ### Which lists lie in which arrays

What a call does to the lists it does not name depends on where the lists
lie. The predicates below say that slices are well formed, as the runtime
keeps them, and that lists lie in different arrays; the worlds below are the
inputs of the theorems: some built by hand with two lists in one array, as a
struct literal of the exported type can hold them, one with every list in an
array of its own, and one reached through calls of the API. -/

/-- The list of ledger `r` under kind `k`; empty without entry. -/
def World.ids (w : World) (r : Nat) (k : String) : List String :=
  (w.lookup r k).getD []

/-- A slice is well formed in a memory: its length is at most its capacity and
its array lies within the memory. -/
def validSlice (mem : Memory) (s : Slice) : Bool :=
  decide (s.len ≤ s.cap) && decide (s.ptr + s.cap ≤ mem.length)

/-- The arrays of two slices, each given by position and capacity, have no
cell in common. -/
def disjoint (s t : Slice) : Bool :=
  decide (s.cap = 0) || decide (t.cap = 0) || decide (s.ptr + s.cap ≤ t.ptr) ||
    decide (t.ptr + t.cap ≤ s.ptr)

/-- Every slice of a map is well formed in the memory. -/
def validMap (mem : Memory) (m : SliceMap) : Bool :=
  m.entries.all fun e => validSlice mem e.2

/-- The lists of different kinds of a map occupy different arrays. -/
def separate (m : SliceMap) : Bool :=
  m.entries.all fun e => m.entries.all fun e1 => decide (e.1 = e1.1) || disjoint e.2 e1.2

/-- No list of the map `m` occupies an array that holds a list of `om`. -/
def apart (m om : SliceMap) : Bool :=
  m.entries.all fun e => om.entries.all fun e1 => disjoint e.2 e1.2

/-- How an `append` on the slice `s` in the memory `mem` leaves things: the
new slice `s1` is well formed in the new memory `mem1`, the memory has not
shrunk, every old cell outside the array of `s` is as it was, and `s1` is
over the array of `s` or over an array allocated since. -/
def StepsFrom (mem : Memory) (s : Slice) (mem1 : Memory) (s1 : Slice) : Prop :=
  validSlice mem1 s1 = true ∧ mem.length ≤ mem1.length ∧
    (∀ q, q < mem.length → ¬ (s.ptr ≤ q ∧ q < s.ptr + s.cap) → mem1[q]? = mem[q]?) ∧
    ((s1.ptr = s.ptr ∧ s1.cap = s.cap) ∨ mem.length ≤ s1.ptr)

/-- Ledger `r` exists and each of its lists is well formed in the memory, as
the runtime keeps every slice: the length is at most the capacity and the
array lies within the memory. A nil map has no list. -/
def World.wellFormed (w : World) (r : Nat) : Bool :=
  match w.ledgers.get? r with
  | some (some m) => validMap w.mem m
  | some none => true
  | none => false

/-- Ledger `r` exists, each of its lists is well formed in the memory, and its
lists occupy pairwise different arrays. A nil map has no list. -/
def World.ownsArrays (w : World) (r : Nat) : Bool :=
  match w.ledgers.get? r with
  | some (some m) => validMap w.mem m && separate m
  | some none => true
  | none => false

/-- What the ledger pointer `o` lists under a kind, as a comma-ok lookup:
`none` for a nil pointer and without entry. -/
def World.lookupOf (w : World) (o : Option Nat) (k : String) : Option (List String) :=
  match o with
  | none => none
  | some j => w.lookup j k

/-- Ledger `r` exists and has a non-nil map, its lists are well formed in the
memory and occupy pairwise different arrays, and the ledger pointer `o` is
nil, or is `r` itself, or names a ledger whose lists are well formed and none
of which lies in an array of a list of `r`. -/
def World.mergeReady (w : World) (r : Nat) (o : Option Nat) : Bool :=
  match w.ledgers.get? r with
  | some (some m) =>
    validMap w.mem m && separate m &&
      match o with
      | none => true
      | some j =>
        decide (j = r) ||
          match w.ledgers.get? j with
          | some (some om) => validMap w.mem om && apart m om
          | some none => true
          | none => false
  | _ => false

/-- What the ledger pointer `o` lists under a kind: nothing for a nil pointer
and without entry. -/
def World.idsOf (w : World) (o : Option Nat) (k : String) : List String :=
  (w.lookupOf o k).getD []

/-- Two readings of one position of `ledgers` agree up to the order in which
a map yields its entries: both out of range, both a nil map, or two maps with
the same entries. -/
def sameEntries : Option (Option SliceMap) → Option (Option SliceMap) → Prop
  | some (some m), some (some m1) => m.entries.Perm m1.entries
  | some none, some none => True
  | none, none => True
  | _, _ => False

/-- Two worlds that differ at most in the order in which the maps of their
ledgers yield their kinds to a `range` loop: the same memory, the same
runtime, the same ledgers, and in each map the same entries. -/
def World.sameUpToOrder (w w1 : World) : Prop :=
  w1.mem = w.mem ∧ w1.grow = w.grow ∧
    ∀ i, sameEntries (w.ledgers.get? i) (w1.ledgers.get? i)

/-- A world built by hand, as a struct literal builds it: ledger 0 holds two
kinds over the one array `[a, b]`, `k1` as `arr[:1]` and `k2` as `arr[1:]`;
ledger 1 holds `k1: [x]` and `k2: [b]` in arrays of their own, and its map
yields `k1` before `k2`. -/
def sharedKinds : World :=
  ⟨["a", "b", "x", "b"],
   [some ((∅ : SliceMap).insert "k2" ⟨1, 1, 1⟩ |>.insert "k1" ⟨0, 1, 2⟩),
    some ((∅ : SliceMap).insert "k2" ⟨3, 1, 1⟩ |>.insert "k1" ⟨2, 1, 1⟩)],
   growCap⟩

/-- The world `sharedKinds` with the map of ledger 1 yielding `k2` before `k1`. -/
def sharedKindsRev : World :=
  ⟨["a", "b", "x", "b"],
   [some ((∅ : SliceMap).insert "k2" ⟨1, 1, 1⟩ |>.insert "k1" ⟨0, 1, 2⟩),
    some ((∅ : SliceMap).insert "k1" ⟨2, 1, 1⟩ |>.insert "k2" ⟨3, 1, 1⟩)],
   growCap⟩

/-- A world built by hand in which the two ledgers have an array in common:
over `arr = [a, b]` ledger 0 holds `k1` as `arr[:1]` and ledger 1 holds `k2`
as `arr[1:]`; ledger 0 holds `k2: [c]` and ledger 1 holds `k1: [x]` in arrays
of their own, so the lists of ledger 0 lie in different arrays. The map of
ledger 1 yields `k1` before `k2`. -/
def sharedLedgers : World :=
  ⟨["a", "b", "c", "x"],
   [some ((∅ : SliceMap).insert "k2" ⟨2, 1, 1⟩ |>.insert "k1" ⟨0, 1, 2⟩),
    some ((∅ : SliceMap).insert "k2" ⟨1, 1, 1⟩ |>.insert "k1" ⟨3, 1, 1⟩)],
   growCap⟩

/-- The world `sharedLedgers` with the map of ledger 1 yielding `k2` before `k1`. -/
def sharedLedgersRev : World :=
  ⟨["a", "b", "c", "x"],
   [some ((∅ : SliceMap).insert "k2" ⟨2, 1, 1⟩ |>.insert "k1" ⟨0, 1, 2⟩),
    some ((∅ : SliceMap).insert "k1" ⟨3, 1, 1⟩ |>.insert "k2" ⟨1, 1, 1⟩)],
   growCap⟩

/-- A world built by hand: ledger 0 holds two kinds over the one array
`[a, b, c]`, `k1` as `arr[:2]` and `k2` as `arr[:3]`. -/
def nestedKinds : World :=
  ⟨["a", "b", "c"],
   [some ((∅ : SliceMap).insert "k2" ⟨0, 3, 3⟩ |>.insert "k1" ⟨0, 2, 3⟩)],
   growCap⟩

/-- A world in which every list has an array of its own: ledger 0 lists
`img1, img2` under `image` (capacity 4) and `loop0` under `dev`, ledger 1
lists `img3, img2, img3, img4` under `image` and `vol1` under `volume`, its
map yielding `image` first, and ledger 2 has a nil map. -/
def sampleWorld : World :=
  ⟨["img1", "img2", "", "", "loop0", "img3", "img2", "img3", "img4", "vol1"],
   [some ((∅ : SliceMap).insert "dev" ⟨4, 1, 1⟩ |>.insert "image" ⟨0, 2, 4⟩),
    some ((∅ : SliceMap).insert "volume" ⟨9, 1, 1⟩ |>.insert "image" ⟨5, 4, 4⟩),
    none],
   growCap⟩

/-- The world `sampleWorld` with the map of ledger 1 yielding `volume` first. -/
def sampleWorldRev : World :=
  ⟨["img1", "img2", "", "", "loop0", "img3", "img2", "img3", "img4", "vol1"],
   [some ((∅ : SliceMap).insert "dev" ⟨4, 1, 1⟩ |>.insert "image" ⟨0, 2, 4⟩),
    some ((∅ : SliceMap).insert "image" ⟨5, 4, 4⟩ |>.insert "volume" ⟨9, 1, 1⟩),
    none],
   growCap⟩

/-- Calls of the API that end with three ledgers: ledger 0 lists
`img1, img2, img3`, ledger 1 merged ledger 0 and then removed `img3`, so it
lists `img1, img2`, and ledger 2 lists `img4`. -/
def sharedByMerge : List Call :=
  [Call.new, Call.add 0 "image" "img1", Call.add 0 "image" "img2",
   Call.add 0 "image" "img3", Call.new, Call.merge 1 (some 0),
   Call.remove 1 "image" "img3", Call.new, Call.add 2 "image" "img4"]

end Store

/-- The ids of a list, each once, in the order of their first occurrence. -/
def firstOccurrences : List String → List String
  | [] => []
  | x :: xs => x :: (firstOccurrences xs).filter (fun y => y ≠ x)

/-! ## Drivers and the task environment

`NewDriver` and `GetTaskEnv` are in the sources; the packages they call
(`env`, `allocdir`, `config`, `structs`, the six backends) are not. What these
packages provide is modelled from the spec or taken as a parameter, as each
doc comment says. Every pointer that `GetTaskEnv` dereferences or compares
with nil is an `Option`, `none` for nil; a dereference of nil ends the call
with `Outcome.panic`. -/

/-- Modelled from the spec: `cstructs.FSIsolation` is not in the sources. The
isolation modes are none, process-level and image. -/
inductive FSIsolation where
  | FSIsolationNone
  | FSIsolationProcess
  | FSIsolationImage
  deriving DecidableEq

/-- Modelled from the spec: `allocdir.TaskDir` is not in the sources; the
host-side shared, local and secrets paths that `GetTaskEnv` reads. -/
structure TaskDir where
  SharedAllocDir : String
  LocalDir : String
  SecretsDir : String

/-- Modelled from the spec: `config.Config` is not in the sources; the options
behind its key lookup. -/
structure Config where
  Options : List (String × String)

/-- Modelled from the spec: `Config.ReadDefault` is not in the sources; a key
lookup with default-fallback. -/
def Config.ReadDefault (c : Config) (id defaultValue : String) : String :=
  (c.Options.lookup id).getD defaultValue

/-- Modelled from the spec: `structs.Node` is not in the sources; the node
descriptor, which `GetTaskEnv` only passes on. -/
structure Node where
  ID : String

/-- Modelled from the spec: `structs.Job` is not in the sources; the job name
and what `CombinedTaskMeta` answers for a task group and a task name. -/
structure Job where
  Name : String
  CombinedTaskMeta : String → String → List (String × String)

/-- Modelled from the spec: `structs.Allocation` is not in the sources; `Job`
is a pointer, `none` for nil. -/
structure Allocation where
  ID : String
  Job : Option Job
  TaskGroup : String

/-- Modelled from the spec: `structs.Resources` is not in the sources; the
declared limits that `GetTaskEnv` folds in. -/
structure Resources where
  MemoryMB : Int
  CPU : Int
  Networks : List String

/-- Modelled from the spec: `structs.Vault` is not in the sources. -/
structure Vault where
  Env : Bool

/-- Modelled from the spec: `structs.Task` is not in the sources; `Resources`
and `Vault` are the pointers that `GetTaskEnv` compares with nil. -/
structure Task where
  Name : String
  Driver : String
  Env : List (String × String)
  Resources : Option Resources
  Vault : Option Vault

/-- Modelled from the spec: package `env` is not in the sources. A
`TaskEnvironment` is the record of what its setters were given; a field is
`none` as long as its setter has not been called. `HostEnvvars` holds the
deny-list given to `AppendHostEnvvars`: `none` means that no host environment
variable is propagated. -/
structure TaskEnvironment where
  Node : Node
  TaskMeta : Option (List (String × String))
  JobName : Option String
  Envvars : Option (List (String × String))
  TaskName : Option String
  AllocDir : Option String
  TaskLocalDir : Option String
  SecretsDir : Option String
  MemLimit : Option Int
  CpuLimit : Option Int
  Networks : Option (List String)
  Alloc : Option Allocation
  VaultToken : Option (String × Bool)
  HostEnvvars : Option (List String)

/-- Modelled from the spec: `env.NewTaskEnvironment` is not in the sources. -/
def NewTaskEnvironment (node : Node) : TaskEnvironment :=
  ⟨node, none, none, none, none, none, none, none, none, none, none, none, none, none⟩

namespace TaskEnvironment

/-- Modelled from the spec: the setter `SetTaskMeta`, not in the sources. -/
def SetTaskMeta (e : TaskEnvironment) (m : List (String × String)) : TaskEnvironment :=
  { e with TaskMeta := some m }

/-- Modelled from the spec: the setter `SetJobName`, not in the sources. -/
def SetJobName (e : TaskEnvironment) (name : String) : TaskEnvironment :=
  { e with JobName := some name }

/-- Modelled from the spec: the setter `SetEnvvars`, not in the sources. -/
def SetEnvvars (e : TaskEnvironment) (m : List (String × String)) : TaskEnvironment :=
  { e with Envvars := some m }

/-- Modelled from the spec: the setter `SetTaskName`, not in the sources. -/
def SetTaskName (e : TaskEnvironment) (name : String) : TaskEnvironment :=
  { e with TaskName := some name }

/-- Modelled from the spec: the setter `SetAllocDir`, not in the sources. -/
def SetAllocDir (e : TaskEnvironment) (dir : String) : TaskEnvironment :=
  { e with AllocDir := some dir }

/-- Modelled from the spec: the setter `SetTaskLocalDir`, not in the sources. -/
def SetTaskLocalDir (e : TaskEnvironment) (dir : String) : TaskEnvironment :=
  { e with TaskLocalDir := some dir }

/-- Modelled from the spec: the setter `SetSecretsDir`, not in the sources. -/
def SetSecretsDir (e : TaskEnvironment) (dir : String) : TaskEnvironment :=
  { e with SecretsDir := some dir }

/-- Modelled from the spec: the setter `SetMemLimit`, not in the sources. -/
def SetMemLimit (e : TaskEnvironment) (n : Int) : TaskEnvironment :=
  { e with MemLimit := some n }

/-- Modelled from the spec: the setter `SetCpuLimit`, not in the sources. -/
def SetCpuLimit (e : TaskEnvironment) (n : Int) : TaskEnvironment :=
  { e with CpuLimit := some n }

/-- Modelled from the spec: the setter `SetNetworks`, not in the sources. -/
def SetNetworks (e : TaskEnvironment) (n : List String) : TaskEnvironment :=
  { e with Networks := some n }

/-- Modelled from the spec: the setter `SetAlloc`, not in the sources. -/
def SetAlloc (e : TaskEnvironment) (a : Allocation) : TaskEnvironment :=
  { e with Alloc := some a }

/-- Modelled from the spec: the setter `SetVaultToken`, not in the sources. -/
def SetVaultToken (e : TaskEnvironment) (token : String) (inject : Bool) : TaskEnvironment :=
  { e with VaultToken := some (token, inject) }

/-- Modelled from the spec: `AppendHostEnvvars`, not in the sources; the host
environment is propagated except for the names of `filter`. -/
def AppendHostEnvvars (e : TaskEnvironment) (filter : List String) : TaskEnvironment :=
  { e with HostEnvvars := some filter }

/-- Modelled from the spec: `Build`, not in the sources; it resolves the
record into the final view and changes none of the recorded fields. -/
def Build (e : TaskEnvironment) : TaskEnvironment := e

end TaskEnvironment

/-- The struct `DriverContext`; the logger and the event callback are kept as
present or absent. -/
structure DriverContext where
  taskName : String
  config : Option Config
  logger : Option Unit
  node : Option Node
  taskEnv : Option TaskEnvironment
  emitEvent : Option Unit

/-- Constructor `NewEmptyDriverContext`: all fields at their zero value. -/
def NewEmptyDriverContext : DriverContext :=
  ⟨"", none, none, none, none, none⟩

/-- Constructor `NewDriverContext`: a context with the given fields. -/
def NewDriverContext (taskName : String) (config : Option Config) (node : Option Node)
    (logger : Option Unit) (taskEnv : Option TaskEnvironment)
    (eventEmitter : Option Unit) : DriverContext :=
  ⟨taskName, config, logger, node, taskEnv, eventEmitter⟩

/-- Modelled from the spec: the backends that implement the interface `Driver`
are not in the sources. A driver is taken with the answer of its method
`FSIsolation`, the only method called in this file. -/
structure Driver where
  Name : String
  FSIsolation : FSIsolation
  deriving DecidableEq

/-- The type `Factory`: it instantiates a new driver from a context. -/
abbrev Factory := DriverContext → Driver

/-- The six factories named by `BuiltinDrivers`; they are defined with the
backends, outside the sources, and are a parameter here. -/
structure Factories where
  NewDockerDriver : Factory
  NewExecDriver : Factory
  NewRawExecDriver : Factory
  NewJavaDriver : Factory
  NewQemuDriver : Factory
  NewRktDriver : Factory

/-- The table `BuiltinDrivers`. -/
def BuiltinDrivers (f : Factories) : List (String × Factory) :=
  [("docker", f.NewDockerDriver),
   ("exec", f.NewExecDriver),
   ("raw_exec", f.NewRawExecDriver),
   ("java", f.NewJavaDriver),
   ("qemu", f.NewQemuDriver),
   ("rkt", f.NewRktDriver)]

/-- Function `NewDriver`: the pair `(driver, error)` it returns, `none` for
nil. -/
def NewDriver (f : Factories) (name : String) (ctx : DriverContext) :
    Option Driver × Option String :=
  match (BuiltinDrivers f).lookup name with
  | none => (none, some ("unknown driver '" ++ name ++ "'"))
  | some factory => (some (factory ctx), none)

/-- The constants of `allocdir` and `config` that `GetTaskEnv` names; they are
defined outside the sources and are a parameter here. -/
structure Constants where
  SharedAllocContainerPath : String
  TaskLocalContainerPath : String
  TaskSecretsContainerPath : String
  DefaultEnvBlacklist : String

/-- What a call of `GetTaskEnv` ends with: `ok e` for `(e, nil)`, `error msg`
for `(nil, err)`, `panic` for a nil pointer dereference. -/
inductive Outcome where
  | ok (e : TaskEnvironment)
  | error (msg : String)
  | panic

/-- Function `GetTaskEnv`. The first statement reads `alloc.Job`,
`alloc.TaskGroup`, `task.Name` and `alloc.Job.Name`, which stops the call when
`alloc`, `task` or `alloc.Job` is nil; the test `alloc != nil` comes after the
directories are chosen. `taskDir` is read only in the branch without
filesystem isolation, `conf` only when the mode is not image. -/
def GetTaskEnv (f : Factories) (c : Constants) (taskDir : Option TaskDir) (node : Node)
    (task : Option Task) (alloc : Option Allocation) (conf : Option Config)
    (vaultToken : String) : Outcome :=
  match alloc with
  | none => Outcome.panic
  | some a =>
    match task with
    | none => Outcome.panic
    | some t =>
      match a.Job with
      | none => Outcome.panic
      | some job =>
        let env0 := ((((NewTaskEnvironment node).SetTaskMeta
          (job.CombinedTaskMeta a.TaskGroup t.Name)).SetJobName job.Name).SetEnvvars
          t.Env).SetTaskName t.Name
        match NewDriver f t.Driver NewEmptyDriverContext with
        | (_, some err) => Outcome.error err
        | (none, none) => Outcome.panic
        | (some drv, none) =>
          let dirs : Option TaskEnvironment :=
            match drv.FSIsolation with
            | FSIsolation.FSIsolationNone =>
              match taskDir with
              | none => none
              | some td =>
                some (((env0.SetAllocDir td.SharedAllocDir).SetTaskLocalDir
                  td.LocalDir).SetSecretsDir td.SecretsDir)
            | _ =>
              some (((env0.SetAllocDir c.SharedAllocContainerPath).SetTaskLocalDir
                c.TaskLocalContainerPath).SetSecretsDir c.TaskSecretsContainerPath)
          match dirs with
          | none => Outcome.panic
          | some env1 =>
            let env2 :=
              match t.Resources with
              | some r =>
                ((env1.SetMemLimit r.MemoryMB).SetCpuLimit r.CPU).SetNetworks r.Networks
              | none => env1
            let env3 :=
              match alloc with
              | some a1 => env2.SetAlloc a1
              | none => env2
            let env4 :=
              match t.Vault with
              | some v => env3.SetVaultToken vaultToken v.Env
              | none => env3
            if drv.FSIsolation ≠ FSIsolation.FSIsolationImage then
              match conf with
              | none => Outcome.panic
              | some cf =>
                Outcome.ok (env4.AppendHostEnvvars
                  ((cf.ReadDefault "env.blacklist" c.DefaultEnvBlacklist).splitOn ",")).Build
            else Outcome.ok env4.Build

/-- The names under which `BuiltinDrivers` registers a factory. -/
def registeredNames : List String :=
  ["docker", "exec", "raw_exec", "java", "qemu", "rkt"]

/-- A sample table of factories, used to evaluate `NewDriver` and `GetTaskEnv`
on concrete inputs: each driver carries its registered name and an isolation
mode. -/
def sampleFactories : Factories :=
  ⟨fun _ => ⟨"docker", FSIsolation.FSIsolationImage⟩,
   fun _ => ⟨"exec", FSIsolation.FSIsolationProcess⟩,
   fun _ => ⟨"raw_exec", FSIsolation.FSIsolationNone⟩,
   fun _ => ⟨"java", FSIsolation.FSIsolationProcess⟩,
   fun _ => ⟨"qemu", FSIsolation.FSIsolationImage⟩,
   fun _ => ⟨"rkt", FSIsolation.FSIsolationImage⟩⟩

/-- Sample values of the constants, used to evaluate `GetTaskEnv`. -/
def sampleConstants : Constants :=
  ⟨"/alloc", "/local", "/secrets", "CONSUL_TOKEN,VAULT_TOKEN"⟩

/-- A sample task directory, used to evaluate `GetTaskEnv`. -/
def sampleTaskDir : TaskDir :=
  ⟨"/var/nomad/alloc/a1/alloc", "/var/nomad/alloc/a1/web/local",
   "/var/nomad/alloc/a1/web/secrets"⟩

/-- A sample task that names the driver `drv`, used to evaluate `GetTaskEnv`. -/
def sampleTask (drv : String) : Task :=
  ⟨"web", drv, [("PORT", "8080")], some ⟨256, 500, []⟩, none⟩

/-- A sample allocation, used to evaluate `GetTaskEnv`. -/
def sampleAlloc : Allocation :=
  ⟨"a1", some ⟨"job1", fun _ _ => [("owner", "ops")]⟩, "group1"⟩

/-! ## Lists: the search loops -/

theorem containsItem_iff (v : String) (l : List String) :
    containsItem v l = true ↔ v ∈ l := by
  induction l with
  | nil => simp [containsItem]
  | cons item rest ih =>
    by_cases h : item = v
    · simp [containsItem, h]
    · have h2 : ¬ v = item := fun e => h e.symm
      simp [containsItem, h, h2, ih]

theorem containsItem_false_iff (v : String) (l : List String) :
    containsItem v l = false ↔ v ∉ l := by
  rw [← containsItem_iff]; simp

theorem firstIndex_eq_none (needle : String) (l : List String) :
    firstIndex needle l = none ↔ needle ∉ l := by
  induction l with
  | nil => simp [firstIndex]
  | cons item rest ih =>
    by_cases h : item = needle
    · simp [firstIndex, h]
    · have h2 : ¬ needle = item := fun e => h e.symm
      simp [firstIndex, h, h2, ih]

theorem firstIndex_isSome (needle : String) (l : List String) (h : needle ∈ l) :
    ∃ i, firstIndex needle l = some i := by
  cases hf : firstIndex needle l with
  | none => exact absurd h ((firstIndex_eq_none needle l).1 hf)
  | some i => exact ⟨i, rfl⟩

/-- The list assigned by `Remove` is the haystack without its first `needle`. -/
theorem firstIndex_take_drop (needle : String) (l : List String) (i : Nat)
    (h : firstIndex needle l = some i) :
    l.take i ++ l.drop (i + 1) = l.erase needle := by
  induction l generalizing i with
  | nil => simp [firstIndex] at h
  | cons item rest ih =>
    by_cases hi : item = needle
    · simp [firstIndex, hi] at h
      subst h; subst hi
      simp
    · simp only [firstIndex, hi, if_false, Option.map_eq_some'] at h
      obtain ⟨j, hj, rfl⟩ := h
      have hne : (item == needle) = false := by simpa using hi
      simp [List.erase_cons, hne, ih j hj]

theorem firstIndex_mem (needle : String) (l : List String) (i : Nat)
    (h : firstIndex needle l = some i) : needle ∈ l := by
  by_contra hn
  rw [(firstIndex_eq_none needle l).2 hn] at h
  exact Option.noConfusion h

/-! ## Lists: the inner loop of `Merge` -/

theorem mergeList_nil (cur : List String) : mergeList cur [] = cur := rfl

theorem mergeList_cons (cur : List String) (item : String) (v : List String) :
    mergeList cur (item :: v) =
      mergeList (if containsItem item cur then cur else cur ++ [item]) v := rfl

theorem mem_mergeList (cur v : List String) (x : String) :
    x ∈ mergeList cur v ↔ x ∈ cur ∨ x ∈ v := by
  induction v generalizing cur with
  | nil => simp [mergeList_nil]
  | cons item v ih =>
    rw [mergeList_cons, ih]
    by_cases hc : containsItem item cur = true
    · have hm := (containsItem_iff item cur).1 hc
      simp only [hc, if_true, List.mem_cons]
      constructor
      · rintro (h | h)
        · exact Or.inl h
        · exact Or.inr (Or.inr h)
      · rintro (h | h | h)
        · exact Or.inl h
        · exact Or.inl (h ▸ hm)
        · exact Or.inr h
    · rw [if_neg hc]
      simp only [List.mem_append, List.mem_singleton, List.mem_cons]
      tauto

theorem mergeList_of_subset (cur v : List String) (h : ∀ x ∈ v, x ∈ cur) :
    mergeList cur v = cur := by
  induction v generalizing cur with
  | nil => rfl
  | cons item v ih =>
    rw [mergeList_cons]
    have hc : containsItem item cur = true :=
      (containsItem_iff item cur).2 (h item (List.mem_cons_self _ _))
    simp only [hc, if_true]
    exact ih cur (fun x hx => h x (List.mem_cons_of_mem _ hx))

theorem mergeList_self (v : List String) : mergeList v v = v :=
  mergeList_of_subset _ _ (fun _ hx => hx)

/-- Merging a list into itself leaves it as it is. -/
theorem mergeVal_self (v : List String) : mergeVal (some v) v = v := by
  unfold mergeVal
  by_cases h : ((some v).getD []).length = 0
  · rw [if_pos h]
  · rw [if_neg h]
    exact mergeList_self v

theorem mem_mergeVal (old : Option (List String)) (v : List String) (x : String) :
    x ∈ mergeVal old v ↔ x ∈ old.getD [] ∨ x ∈ v := by
  unfold mergeVal
  by_cases h : (old.getD []).length = 0
  · have h0 : old.getD [] = [] := List.length_eq_zero.1 h
    simp [h, h0]
  · simp only [h, if_false]
    exact mem_mergeList _ _ _

/-! ## The loop of `Copy` -/

namespace CreatedResources

/-- Entry by entry, `Copy` fills a map whose lookups are those of the entries. -/
theorem lookup_foldl_insert (es : List (Sigma fun _ : String => List String))
    (hnd : es.NodupKeys) (m : ResourceMap) (k : String) :
    (es.foldl (fun newr e => newr.insert e.1 e.2) m).lookup k =
      match es.dlookup k with
      | none => m.lookup k
      | some v => some v := by
  induction es generalizing m with
  | nil => simp
  | cons e rest ih =>
    have hnd2 := List.nodupKeys_cons.1 hnd
    rw [List.foldl_cons, ih hnd2.2]
    obtain ⟨a, b⟩ := e
    by_cases hk : k = a
    · subst hk
      have hnone : rest.dlookup k = none := List.dlookup_eq_none.2 hnd2.1
      rw [hnone, List.dlookup_cons_eq]
      exact AList.lookup_insert m
    · rw [List.dlookup_cons_ne _ _ hk]
      cases rest.dlookup k with
      | none => exact AList.lookup_insert_ne hk
      | some v => rfl

end CreatedResources

/-! ## `Add` and `Remove` on a ledger -/

namespace CreatedResources

theorem lookup_singleton_self (k : String) (l : List String) :
    (AList.singleton k l : ResourceMap).lookup k = some l := by
  rw [← AList.insert_empty]
  exact AList.lookup_insert _

theorem lookup_singleton_ne (k k1 : String) (l : List String) (h : k1 ≠ k) :
    (AList.singleton k l : ResourceMap).lookup k1 = none := by
  rw [← AList.insert_empty, AList.lookup_insert_ne h]
  exact AList.lookup_empty _

/-- Effect of `Add`: it leaves a non-nil map, puts under `k` the previous list (with `v` at
the end when it was not listed) and keeps every other entry. -/
theorem Add_spec (r : CreatedResources) (k v : String) :
    (r.Add k v).Resources.isSome = true ∧
      (r.Add k v).lookup k =
        some (if v ∈ r.index k then r.index k else r.index k ++ [v]) ∧
      ∀ k1, k1 ≠ k → (r.Add k v).lookup k1 = r.lookup k1 := by
  obtain ⟨res⟩ := r
  cases res with
  | none =>
    refine ⟨rfl, ?_, ?_⟩
    · simp [Add, lookup, index, lookup_singleton_self]
    · intro k1 hk
      simp only [Add, lookup]
      exact lookup_singleton_ne k k1 [v] hk
  | some m =>
    cases hl : m.lookup k with
    | none =>
      refine ⟨by simp [Add, hl], ?_, ?_⟩
      · simp [Add, hl, lookup, index, AList.lookup_insert]
      · intro k1 hk
        simp only [Add, hl, lookup]
        exact AList.lookup_insert_ne hk
    | some existing =>
      by_cases hc : containsItem v existing = true
      · have hm : v ∈ existing := (containsItem_iff v existing).1 hc
        refine ⟨by simp [Add, hl, hc], ?_, ?_⟩
        · simp [Add, hl, hc, lookup, index, hm]
        · intro k1 _
          simp [Add, hl, hc]
      · have hm : v ∉ existing := fun h => hc ((containsItem_iff v existing).2 h)
        refine ⟨by simp [Add, hl, hc], ?_, ?_⟩
        · simp [Add, hl, hc, lookup, index, hm, AList.lookup_insert]
        · intro k1 hk
          simp only [Add, hl, hc, lookup]
          exact AList.lookup_insert_ne hk

/-- An `Add` of an id that the kind already lists returns the receiver as it is. -/
theorem Add_of_mem (r : CreatedResources) (k v : String) (h : v ∈ r.index k) :
    r.Add k v = r := by
  obtain ⟨res⟩ := r
  cases res with
  | none => simp [index, lookup] at h
  | some m =>
    cases hl : m.lookup k with
    | none => simp [index, lookup, hl] at h
    | some existing =>
      have hm : v ∈ existing := by simpa [index, lookup, hl] using h
      have hc := (containsItem_iff v existing).2 hm
      simp [Add, hl, hc]

theorem mem_index_Add (r : CreatedResources) (k v : String) :
    v ∈ (r.Add k v).index k := by
  have h := (Add_spec r k v).2.1
  rw [index, h, Option.getD_some]
  by_cases hm : v ∈ r.index k
  · simp [hm]
  · simp [hm]

/-- A `Remove` of an id that the kind does not list changes nothing. -/
theorem Remove_miss (r : CreatedResources) (k needle : String)
    (h : needle ∉ r.index k) : r.Remove k needle = (r, false) := by
  obtain ⟨res⟩ := r
  cases res with
  | none => rfl
  | some m =>
    have hf : firstIndex needle ((m.lookup k).getD []) = none :=
      (firstIndex_eq_none _ _).2 (by simpa [index, lookup] using h)
    simp [Remove, hf]

/-- A `Remove` of an id that the kind lists: the first occurrence goes, the kind
goes with it when nothing is left, every other entry stays. -/
theorem Remove_hit (r : CreatedResources) (k needle : String)
    (h : needle ∈ r.index k) :
    (r.Remove k needle).2 = true ∧
      (r.Remove k needle).1.Resources.isSome = true ∧
      (r.Remove k needle).1.lookup k =
        (if (r.index k).erase needle = [] then none
         else some ((r.index k).erase needle)) ∧
      ∀ k1, k1 ≠ k → (r.Remove k needle).1.lookup k1 = r.lookup k1 := by
  obtain ⟨res⟩ := r
  cases res with
  | none => simp [index, lookup] at h
  | some m =>
    have hin : needle ∈ (m.lookup k).getD [] := by simpa [index, lookup] using h
    obtain ⟨i, hi⟩ := firstIndex_isSome needle _ hin
    have htd := firstIndex_take_drop needle _ i hi
    have hR : Remove ⟨some m⟩ k needle =
        if (((m.lookup k).getD []).erase needle).length = 0 then
          (⟨some ((m.insert k (((m.lookup k).getD []).erase needle)).erase k)⟩, true)
        else (⟨some (m.insert k (((m.lookup k).getD []).erase needle))⟩, true) := by
      simp only [Remove, hi, AList.lookup_insert, Option.getD_some, htd]
    rw [hR]
    have hidx : (CreatedResources.mk (some m)).index k = (m.lookup k).getD [] := rfl
    rw [hidx]
    by_cases he : ((m.lookup k).getD []).erase needle = []
    · have hlen : (((m.lookup k).getD []).erase needle).length = 0 := by rw [he]; rfl
      rw [if_pos hlen, if_pos he]
      refine ⟨rfl, rfl, AList.lookup_erase k _, ?_⟩
      intro k1 hk
      show AList.lookup k1 (AList.erase k
        (AList.insert k (((m.lookup k).getD []).erase needle) m)) = AList.lookup k1 m
      rw [AList.lookup_erase_ne hk, AList.lookup_insert_ne hk]
    · have hlen : ¬ (((m.lookup k).getD []).erase needle).length = 0 :=
        fun h0 => he (List.length_eq_zero.1 h0)
      rw [if_neg hlen, if_neg he]
      refine ⟨rfl, rfl, AList.lookup_insert m, ?_⟩
      intro k1 hk
      exact AList.lookup_insert_ne hk

end CreatedResources

/-! ## Claims -/

open CreatedResources

/-- C4: `Add` is idempotent. For every ledger `L`, also one whose map is nil,
and all `k`, `a`, the ledger after `Add(k,a); Add(k,a)` is the ledger after one
`Add(k,a)`. -/
theorem Add_idempotent (L : CreatedResources) (k a : String) :
    (L.Add k a).Add k a = L.Add k a :=
  Add_of_mem (L.Add k a) k a (mem_index_Add L k a)

/-- C5 as stated fails: a ledger that lists `a` twice under `k` lists no id
other than `a` there, yet after `Add(k,a); Remove(k,a)` the kind is still
present, with one `a` left. -/
theorem Add_Remove_leaves_kind_counterexample :
    (∀ x ∈ (ofList [("k", ["a", "a"])]).index "k", x = "a") ∧
      (((ofList [("k", ["a", "a"])]).Add "k" "a").Remove "k" "a").2 = true ∧
      (((ofList [("k", ["a", "a"])]).Add "k" "a").Remove "k" "a").1.lookup "k" =
        some ["a"] := by
  decide

/-- C5, amended: for every ledger `L` and all `k`, `a`, after `Add(k,a)` the
call `Remove(k,a)` returns true; and when `L` listed no id other than `a` under
`k` and listed `a` at most once, the resulting map has no entry for `k`. -/
theorem Add_Remove (L : CreatedResources) (k a : String) :
    ((L.Add k a).Remove k a).2 = true ∧
      ((∀ x ∈ L.index k, x = a) → (L.index k).count a ≤ 1 →
        ((L.Add k a).Remove k a).1.lookup k = none) := by
  obtain ⟨h2, _, hk, _⟩ := Remove_hit (L.Add k a) k a (mem_index_Add L k a)
  refine ⟨h2, ?_⟩
  intro hall hcount
  rw [hk]
  have hadd : (L.Add k a).index k = [a] := by
    rw [index, (Add_spec L k a).2.1, Option.getD_some]
    cases hl : L.index k with
    | nil => simp
    | cons x rest =>
      rw [hl] at hall hcount
      have hx : x = a := hall x (List.mem_cons_self _ _)
      subst hx
      cases rest with
      | nil => simp
      | cons y rest2 =>
        have hy : y = x := hall y (by simp)
        subst hy
        simp at hcount
  rw [hadd]
  simp

theorem Add_Remove_witness :
    (((ofList [("k", ["a"])]).Add "k" "a").Remove "k" "a").2 = true ∧
      ((∀ x ∈ (ofList [("k", ["a"])]).index "k", x = "a") →
        ((ofList [("k", ["a"])]).index "k").count "a" ≤ 1 →
        (((ofList [("k", ["a"])]).Add "k" "a").Remove "k" "a").1.lookup "k" = none) ∧
      (∀ x ∈ (ofList [("k", ["a"])]).index "k", x = "a") ∧
      ((ofList [("k", ["a"])]).index "k").count "a" ≤ 1 :=
  ⟨(Add_Remove _ "k" "a").1, (Add_Remove _ "k" "a").2, by decide, by decide⟩

/-- C6: `Remove` of something absent. For every ledger `L` and all `k`,
`needle` such that `k` is not a kind of `L` or `needle` is not listed under
`k`, `Remove(k, needle)` returns false and leaves `L` exactly as it was. -/
theorem Remove_absent (L : CreatedResources) (k needle : String)
    (h : L.lookup k = none ∨ needle ∉ L.index k) :
    L.Remove k needle = (L, false) := by
  apply Remove_miss
  rcases h with h | h
  · simp [index, h]
  · exact h

theorem Remove_absent_witness :
    ((ofList [("image", ["img1"])]).lookup "image" = none ∨
        "img2" ∉ (ofList [("image", ["img1"])]).index "image") ∧
      (ofList [("image", ["img1"])]).Remove "image" "img2" =
        (ofList [("image", ["img1"])], false) :=
  ⟨Or.inr (by decide), Remove_absent _ "image" "img2" (Or.inr (by decide))⟩

/-- C8 fails on the code: a ledger reached through the API lists an id twice.
After `o := NewCreatedResources()`, `o.Add("image", "img1")`,
`o.Add("image", "img2")`, `o.Add("image", "img3")`,
`r := NewCreatedResources()`, `r.Merge(o)`, `r.Remove("image", "img1")`,
ledger `o` (position 0) lists `img2, img3, img3` under `image` while `r`
(position 1) lists `img2, img3`: `Merge` stored the slice of `o` in `r`, and
`Remove` moved the elements inside the array both share. A fresh ledger that
then merges `o` (position 2) and a `Copy` of `o` (position 3) list `img3`
twice as well. -/
theorem reachable_ledger_lists_id_twice :
    (Store.run [Store.Call.new, Store.Call.add 0 "image" "img1",
        Store.Call.add 0 "image" "img2", Store.Call.add 0 "image" "img3",
        Store.Call.new, Store.Call.merge 1 (some 0),
        Store.Call.remove 1 "image" "img1",
        Store.Call.new, Store.Call.merge 2 (some 0), Store.Call.copy 0]).map
      (fun w => (w.lookup 0 "image", w.lookup 1 "image", w.lookup 2 "image",
        w.lookup 3 "image")) =
    some (some ["img2", "img3", "img3"], some ["img2", "img3"],
      some ["img2", "img3", "img3"], some ["img2", "img3", "img3"]) := by
  decide

/-- C9: `Copy` preserves content and nil-ness. `Copy` of a nil ledger is nil,
and for every non-nil ledger `L`, `L.Copy()` is a non-nil ledger whose map is
not nil and which has exactly the kinds of `L` with, under each kind, the same
ids in the same order. -/
theorem Copy_preserves :
    Copy none = none ∧
      ∀ L : CreatedResources, ∃ L2, Copy (some L) = some L2 ∧
        L2.Resources.isSome = true ∧ ∀ k, L2.lookup k = L.lookup k := by
  refine ⟨rfl, ?_⟩
  intro L
  refine ⟨_, rfl, rfl, ?_⟩
  intro k
  obtain ⟨res⟩ := L
  cases res with
  | none => rfl
  | some m =>
    have h := lookup_foldl_insert m.entries m.nodupKeys ∅ k
    simp only [lookup]
    rw [h]
    show (match List.dlookup k m.entries with
      | none => AList.lookup k (∅ : ResourceMap)
      | some v => some v) = List.dlookup k m.entries
    cases List.dlookup k m.entries with
    | none => exact AList.lookup_empty k
    | some v => rfl

/-- C10: `Merge` with nil is a no-op. For every ledger `L`, also one whose map
is nil, `L.Merge(nil)` returns and leaves `L` as it was. -/
theorem Merge_nil (L : CreatedResources) : L.Merge none = some L :=
  rfl

/-! ## Order of the ids appended by `Merge` -/

theorem firstOccurrences_filter (p : String → Bool) (l : List String) :
    firstOccurrences (l.filter p) = (firstOccurrences l).filter p := by
  induction l with
  | nil => rfl
  | cons x xs ih =>
    by_cases hp : p x = true
    · rw [List.filter_cons_of_pos hp]
      simp only [firstOccurrences]
      rw [List.filter_cons_of_pos hp, ih, List.filter_filter, List.filter_filter]
      congr 1
      apply List.filter_congr
      intro y _
      exact Bool.and_comm _ _
    · rw [List.filter_cons_of_neg hp]
      simp only [firstOccurrences]
      rw [List.filter_cons_of_neg hp, ih, List.filter_filter]
      apply List.filter_congr
      intro y _
      by_cases hy : y = x
      · subst hy
        simp [hp]
      · simp [hy]

/-- The inner loop of `Merge` keeps the list it starts from and appends, in
the order of their first occurrence, the ids of `v` that the list lacks. -/
theorem mergeList_eq (cur v : List String) :
    mergeList cur v =
      cur ++ firstOccurrences (v.filter (fun x => decide (x ∉ cur))) := by
  induction v generalizing cur with
  | nil => simp [mergeList_nil, firstOccurrences]
  | cons a v ih =>
    rw [mergeList_cons]
    by_cases hc : containsItem a cur = true
    · have hm : a ∈ cur := (containsItem_iff a cur).1 hc
      rw [if_pos hc, ih]
      have hf : (a :: v).filter (fun x => decide (x ∉ cur)) =
          v.filter (fun x => decide (x ∉ cur)) :=
        List.filter_cons_of_neg (by simpa using hm)
      rw [hf]
    · have hm : a ∉ cur := fun h => hc ((containsItem_iff a cur).2 h)
      rw [if_neg hc, ih]
      have hf : (a :: v).filter (fun x => decide (x ∉ cur)) =
          a :: v.filter (fun x => decide (x ∉ cur)) :=
        List.filter_cons_of_pos (by simpa using hm)
      rw [hf]
      simp only [firstOccurrences]
      rw [← firstOccurrences_filter, List.filter_filter, List.append_assoc]
      congr 1
      rw [List.singleton_append]
      congr 2
      apply List.filter_congr
      intro y _
      by_cases hy : y = a
      · subst hy
        simp
      · by_cases hyc : y ∈ cur
        · simp [hy, hyc]
        · simp [hy, hyc]

/-- C17 fails on the code: `Merge` on the zero-value ledger, whose map is nil,
stops with a runtime failure as soon as the other ledger has a kind (here
`image` with `img1`), while `Add` on the same receiver creates the map and
lists the id. -/
theorem Merge_into_nil_map_fails :
    (CreatedResources.mk none).Merge (some (ofList [("image", ["img1"])])) = none ∧
      ((CreatedResources.mk none).Add "image" "img1").lookup "image" = some ["img1"] ∧
      ∀ (m : ResourceMap) (k : String) (v : List String),
        (CreatedResources.mk none).Merge (some ⟨some (m.insert k v)⟩) = none := by
  refine ⟨rfl, by decide, ?_⟩
  intro m k v
  simp only [Merge, AList.insert_entries, List.kinsert, mergeLoop, mergeKind, Option.map_none']

/-! ## `NewDriver` and `GetTaskEnv` -/

theorem BuiltinDrivers_names (f : Factories) :
    (BuiltinDrivers f).map Prod.fst = registeredNames := rfl

/-- On a name that is not registered `NewDriver` returns the error, whatever
the factories are. -/
theorem NewDriver_unknown (f : Factories) (name : String) (ctx : DriverContext)
    (h : name ∉ registeredNames) :
    NewDriver f name ctx = (none, some ("unknown driver '" ++ name ++ "'")) := by
  simp only [registeredNames, List.mem_cons, List.mem_singleton, List.not_mem_nil,
    or_false, not_or] at h
  obtain ⟨h1, h2, h3, h4, h5, h6⟩ := h
  have b1 : (name == "docker") = false := beq_false_of_ne h1
  have b2 : (name == "exec") = false := beq_false_of_ne h2
  have b3 : (name == "raw_exec") = false := beq_false_of_ne h3
  have b4 : (name == "java") = false := beq_false_of_ne h4
  have b5 : (name == "qemu") = false := beq_false_of_ne h5
  have b6 : (name == "rkt") = false := beq_false_of_ne h6
  simp only [NewDriver, BuiltinDrivers, List.lookup, b1, b2, b3, b4, b5, b6]

/-- On a registered name `NewDriver` returns what the factory stored under
that name answers. -/
theorem NewDriver_known (f : Factories) (name : String) (ctx : DriverContext)
    (factory : Factory) (h : (name, factory) ∈ BuiltinDrivers f) :
    NewDriver f name ctx = (some (factory ctx), none) := by
  simp only [BuiltinDrivers, List.mem_cons, List.mem_singleton, List.not_mem_nil,
    or_false, Prod.mk.injEq] at h
  rcases h with ⟨rfl, rfl⟩ | ⟨rfl, rfl⟩ | ⟨rfl, rfl⟩ | ⟨rfl, rfl⟩ | ⟨rfl, rfl⟩ | ⟨rfl, rfl⟩ <;>
    rfl

theorem registered_has_factory (f : Factories) (name : String)
    (h : name ∈ registeredNames) : ∃ factory, (name, factory) ∈ BuiltinDrivers f := by
  rw [← BuiltinDrivers_names f, List.mem_map] at h
  obtain ⟨⟨n, factory⟩, hmem, rfl⟩ := h
  exact ⟨factory, hmem⟩

/-- The two results `NewDriver` can have, by whether the name is registered. -/
theorem NewDriver_cases (f : Factories) (name : String) (ctx : DriverContext) :
    (name ∈ registeredNames ∧ ∃ drv, NewDriver f name ctx = (some drv, none)) ∨
      (name ∉ registeredNames ∧
        NewDriver f name ctx = (none, some ("unknown driver '" ++ name ++ "'"))) := by
  by_cases h : name ∈ registeredNames
  · obtain ⟨factory, hf⟩ := registered_has_factory f name h
    exact Or.inl ⟨h, factory ctx, NewDriver_known f name ctx factory hf⟩
  · exact Or.inr ⟨h, NewDriver_unknown f name ctx h⟩

/-- What `GetTaskEnv` returns when every pointer is supplied and the driver of
the task resolves to `drv`: the environment with every setter applied in the
order of the source. -/
theorem GetTaskEnv_resolved (f : Factories) (c : Constants) (td : TaskDir)
    (node : Node) (t : Task) (id tg : String) (job : Job) (cf : Config)
    (vaultToken : String) (drv : Driver)
    (hdrv : NewDriver f t.Driver NewEmptyDriverContext = (some drv, none)) :
    ∃ env, GetTaskEnv f c (some td) node (some t) (some ⟨id, some job, tg⟩) (some cf)
        vaultToken = Outcome.ok env ∧
      env.AllocDir = some (if drv.FSIsolation = FSIsolation.FSIsolationNone then
        td.SharedAllocDir else c.SharedAllocContainerPath) ∧
      env.TaskLocalDir = some (if drv.FSIsolation = FSIsolation.FSIsolationNone then
        td.LocalDir else c.TaskLocalContainerPath) ∧
      env.SecretsDir = some (if drv.FSIsolation = FSIsolation.FSIsolationNone then
        td.SecretsDir else c.TaskSecretsContainerPath) ∧
      env.HostEnvvars = (if drv.FSIsolation ≠ FSIsolation.FSIsolationImage then
        some ((cf.ReadDefault "env.blacklist" c.DefaultEnvBlacklist).splitOn ",")
        else none) ∧
      env.Alloc = some ⟨id, some job, tg⟩ := by
  obtain ⟨name, iso⟩ := drv
  simp only [GetTaskEnv, hdrv]
  cases iso <;> cases t.Resources <;> cases t.Vault <;>
    simp [TaskEnvironment.Build, TaskEnvironment.AppendHostEnvvars,
      TaskEnvironment.SetVaultToken, TaskEnvironment.SetAlloc, TaskEnvironment.SetNetworks,
      TaskEnvironment.SetCpuLimit, TaskEnvironment.SetMemLimit,
      TaskEnvironment.SetSecretsDir, TaskEnvironment.SetTaskLocalDir,
      TaskEnvironment.SetAllocDir, TaskEnvironment.SetTaskName, TaskEnvironment.SetEnvvars,
      TaskEnvironment.SetJobName, TaskEnvironment.SetTaskMeta, NewTaskEnvironment]

/-- Without an allocation `GetTaskEnv` stops at its first statement. -/
theorem GetTaskEnv_nil_alloc (f : Factories) (c : Constants) (taskDir : Option TaskDir)
    (node : Node) (task : Option Task) (conf : Option Config) (vaultToken : String) :
    GetTaskEnv f c taskDir node task none conf vaultToken = Outcome.panic := rfl

/-- With an allocation, a job and a task whose driver name is not registered
`GetTaskEnv` returns the error of `NewDriver`. -/
theorem GetTaskEnv_unknown (f : Factories) (c : Constants) (taskDir : Option TaskDir)
    (node : Node) (t : Task) (id tg : String) (job : Job) (conf : Option Config)
    (vaultToken : String) (h : t.Driver ∉ registeredNames) :
    GetTaskEnv f c taskDir node (some t) (some ⟨id, some job, tg⟩) conf vaultToken =
      Outcome.error ("unknown driver '" ++ t.Driver ++ "'") := by
  simp only [GetTaskEnv, NewDriver_unknown f t.Driver NewEmptyDriverContext h]

/-- C11 fails on the code: calls on a copy change the original. With
`L := NewCreatedResources()`, `L.Add("image", "img1")`, `L.Add("image", "img2")`
and `L2 := L.Copy()`, both ledgers list `img1, img2`, and calls of `Remove` and
`Add` on the copy leave `L` as it is. After the calls
`L2.Remove("image", "img1")`, `L2.Remove("image", "img2")`, `L2.Merge(L)`,
`L2.Remove("image", "img1")` on the copy, the original `L` (position 0) lists
`img2, img2`: `Merge` stored the slice of `L` in `L2`, and `Remove` moved the
elements inside the array both share. -/
theorem Copy_original_changed_through_Merge :
    (Store.run [Store.Call.new, Store.Call.add 0 "image" "img1",
        Store.Call.add 0 "image" "img2", Store.Call.copy 0]).map
      (fun w => (w.lookup 0 "image", w.lookup 1 "image")) =
      some (some ["img1", "img2"], some ["img1", "img2"]) ∧
    (Store.run [Store.Call.new, Store.Call.add 0 "image" "img1",
        Store.Call.add 0 "image" "img2", Store.Call.copy 0,
        Store.Call.remove 1 "image" "img1", Store.Call.add 1 "image" "img3",
        Store.Call.add 1 "dev" "loop0"]).map
      (fun w => (w.lookup 0 "image", w.lookup 1 "image")) =
      some (some ["img1", "img2"], some ["img2", "img3"]) ∧
    (Store.run [Store.Call.new, Store.Call.add 0 "image" "img1",
        Store.Call.add 0 "image" "img2", Store.Call.copy 0,
        Store.Call.remove 1 "image" "img1", Store.Call.remove 1 "image" "img2",
        Store.Call.merge 1 (some 0), Store.Call.remove 1 "image" "img1"]).map
      (fun w => (w.lookup 0 "image", w.lookup 1 "image")) =
      some (some ["img2", "img2"], some ["img2"]) := by
  decide

/-- C12: `NewDriver` fails exactly on unregistered names. For every name and
context it returns a nil driver and an error exactly when the name is not one
of docker, exec, raw_exec, java, qemu, rkt, the keys of `BuiltinDrivers`; the
message is then `unknown driver '` followed by the name and `'`, and the result
is the same whatever the factories are, so none of them contributes to it; for
a name registered with a factory it returns what that factory answers on the
context, and a nil error. -/
theorem NewDriver_spec (f : Factories) (name : String) (ctx : DriverContext) :
    (BuiltinDrivers f).map Prod.fst = ["docker", "exec", "raw_exec", "java", "qemu", "rkt"] ∧
      (((NewDriver f name ctx).1 = none ∧ (NewDriver f name ctx).2 ≠ none) ↔
        name ∉ (BuiltinDrivers f).map Prod.fst) ∧
      (name ∉ (BuiltinDrivers f).map Prod.fst →
        NewDriver f name ctx = (none, some ("unknown driver '" ++ name ++ "'")) ∧
        ∀ g : Factories, NewDriver g name ctx = NewDriver f name ctx) ∧
      (∀ factory, (name, factory) ∈ BuiltinDrivers f →
        NewDriver f name ctx = (some (factory ctx), none)) := by
  refine ⟨rfl, ?_, ?_, ?_⟩
  · rw [BuiltinDrivers_names]
    rcases NewDriver_cases f name ctx with ⟨hin, drv, hd⟩ | ⟨hout, hd⟩
    · rw [hd]
      simp [hin]
    · rw [hd]
      simp [hout]
  · rw [BuiltinDrivers_names]
    intro h
    refine ⟨NewDriver_unknown f name ctx h, ?_⟩
    intro g
    rw [NewDriver_unknown f name ctx h, NewDriver_unknown g name ctx h]
  · intro factory h
    exact NewDriver_known f name ctx factory h

theorem NewDriver_spec_witness :
    "lxc" ∉ (BuiltinDrivers sampleFactories).map Prod.fst ∧
      NewDriver sampleFactories "lxc" NewEmptyDriverContext =
        (none, some "unknown driver 'lxc'") ∧
      ("qemu", sampleFactories.NewQemuDriver) ∈ BuiltinDrivers sampleFactories ∧
      NewDriver sampleFactories "qemu" NewEmptyDriverContext =
        (some (sampleFactories.NewQemuDriver NewEmptyDriverContext), none) :=
  ⟨by decide,
    ((NewDriver_spec sampleFactories "lxc" NewEmptyDriverContext).2.2.1 (by decide)).1,
    by simp [BuiltinDrivers],
    (NewDriver_spec sampleFactories "qemu" NewEmptyDriverContext).2.2.2
      sampleFactories.NewQemuDriver (by simp [BuiltinDrivers])⟩

/-- C13 fails on the code when no allocation is supplied. The task names
`raw_exec`, which resolves to a backend without filesystem isolation, and
`exec`, which resolves to a backend with process-level isolation; with a nil
`alloc` the call stops at its first statement, before any directory is set.
With an allocation the same inputs give the host paths of `taskDir` for
`raw_exec` and the fixed container paths for `exec`. -/
theorem GetTaskEnv_sets_no_directory_without_alloc :
    NewDriver sampleFactories "raw_exec" NewEmptyDriverContext =
        (some ⟨"raw_exec", FSIsolation.FSIsolationNone⟩, none) ∧
      NewDriver sampleFactories "exec" NewEmptyDriverContext =
        (some ⟨"exec", FSIsolation.FSIsolationProcess⟩, none) ∧
      GetTaskEnv sampleFactories sampleConstants (some sampleTaskDir) ⟨"n1"⟩
        (some (sampleTask "raw_exec")) none (some ⟨[]⟩) "" = Outcome.panic ∧
      GetTaskEnv sampleFactories sampleConstants (some sampleTaskDir) ⟨"n1"⟩
        (some (sampleTask "exec")) none (some ⟨[]⟩) "" = Outcome.panic ∧
      (∃ env, GetTaskEnv sampleFactories sampleConstants (some sampleTaskDir) ⟨"n1"⟩
          (some (sampleTask "raw_exec")) (some sampleAlloc) (some ⟨[]⟩) "" =
            Outcome.ok env ∧
        env.AllocDir = some "/var/nomad/alloc/a1/alloc" ∧
        env.TaskLocalDir = some "/var/nomad/alloc/a1/web/local" ∧
        env.SecretsDir = some "/var/nomad/alloc/a1/web/secrets") ∧
      (∃ env, GetTaskEnv sampleFactories sampleConstants (some sampleTaskDir) ⟨"n1"⟩
          (some (sampleTask "exec")) (some sampleAlloc) (some ⟨[]⟩) "" = Outcome.ok env ∧
        env.AllocDir = some "/alloc" ∧ env.TaskLocalDir = some "/local" ∧
        env.SecretsDir = some "/secrets") := by
  refine ⟨rfl, rfl, rfl, rfl, ?_, ?_⟩
  · obtain ⟨env, h, h1, h2, h3, _⟩ := GetTaskEnv_resolved sampleFactories sampleConstants
      sampleTaskDir ⟨"n1"⟩ (sampleTask "raw_exec") "a1" "group1"
      ⟨"job1", fun _ _ => [("owner", "ops")]⟩ ⟨[]⟩ ""
      ⟨"raw_exec", FSIsolation.FSIsolationNone⟩ rfl
    exact ⟨env, h, by simpa [sampleTaskDir] using h1, by simpa [sampleTaskDir] using h2,
      by simpa [sampleTaskDir] using h3⟩
  · obtain ⟨env, h, h1, h2, h3, _⟩ := GetTaskEnv_resolved sampleFactories sampleConstants
      sampleTaskDir ⟨"n1"⟩ (sampleTask "exec") "a1" "group1"
      ⟨"job1", fun _ _ => [("owner", "ops")]⟩ ⟨[]⟩ ""
      ⟨"exec", FSIsolation.FSIsolationProcess⟩ rfl
    exact ⟨env, h, by simpa [sampleConstants] using h1, by simpa [sampleConstants] using h2,
      by simpa [sampleConstants] using h3⟩

/-- C14 fails on the code when no allocation is supplied. The task names
`exec`, whose isolation mode is not image; with a nil `alloc` the call stops at
its first statement and `AppendHostEnvvars` is never applied. With an
allocation the same input applies it with the deny-list split from the value
of `env.blacklist`, and a task that names `docker` (mode image) gets no host
environment variable. -/
theorem GetTaskEnv_propagates_nothing_without_alloc :
    NewDriver sampleFactories "exec" NewEmptyDriverContext =
        (some ⟨"exec", FSIsolation.FSIsolationProcess⟩, none) ∧
      GetTaskEnv sampleFactories sampleConstants (some sampleTaskDir) ⟨"n1"⟩
        (some (sampleTask "exec")) none (some ⟨[("env.blacklist", "HOME,PATH")]⟩) "" =
          Outcome.panic ∧
      (∃ env, GetTaskEnv sampleFactories sampleConstants (some sampleTaskDir) ⟨"n1"⟩
          (some (sampleTask "exec")) (some sampleAlloc)
          (some ⟨[("env.blacklist", "HOME,PATH")]⟩) "" = Outcome.ok env ∧
        env.HostEnvvars = some ("HOME,PATH".splitOn ",")) ∧
      (∃ env, GetTaskEnv sampleFactories sampleConstants (some sampleTaskDir) ⟨"n1"⟩
          (some (sampleTask "docker")) (some sampleAlloc)
          (some ⟨[("env.blacklist", "HOME,PATH")]⟩) "" = Outcome.ok env ∧
        env.HostEnvvars = none) := by
  refine ⟨rfl, rfl, ?_, ?_⟩
  · obtain ⟨env, h, _, _, _, h4, _⟩ := GetTaskEnv_resolved sampleFactories sampleConstants
      sampleTaskDir ⟨"n1"⟩ (sampleTask "exec") "a1" "group1"
      ⟨"job1", fun _ _ => [("owner", "ops")]⟩ ⟨[("env.blacklist", "HOME,PATH")]⟩ ""
      ⟨"exec", FSIsolation.FSIsolationProcess⟩ rfl
    refine ⟨env, h, ?_⟩
    rw [h4]
    simp [Config.ReadDefault, List.lookup]
  · obtain ⟨env, h, _, _, _, h4, _⟩ := GetTaskEnv_resolved sampleFactories sampleConstants
      sampleTaskDir ⟨"n1"⟩ (sampleTask "docker") "a1" "group1"
      ⟨"job1", fun _ _ => [("owner", "ops")]⟩ ⟨[("env.blacklist", "HOME,PATH")]⟩ ""
      ⟨"docker", FSIsolation.FSIsolationImage⟩ rfl
    refine ⟨env, h, ?_⟩
    rw [h4]
    simp

/-- C15 fails on the code: with a nil `alloc` the call neither returns an
environment nor an error, whatever the driver name is, because its first
statement reads `alloc.Job`. With every pointer supplied the call returns an
error exactly when the driver name is not registered and an environment
exactly when it is. -/
theorem GetTaskEnv_stops_without_alloc :
    (∀ (f : Factories) (c : Constants) (taskDir : Option TaskDir) (node : Node)
        (task : Option Task) (conf : Option Config) (vaultToken : String),
        GetTaskEnv f c taskDir node task none conf vaultToken = Outcome.panic) ∧
      GetTaskEnv sampleFactories sampleConstants (some sampleTaskDir) ⟨"n1"⟩
        (some (sampleTask "docker")) none (some ⟨[]⟩) "" = Outcome.panic ∧
      ∀ (f : Factories) (c : Constants) (td : TaskDir) (node : Node) (t : Task)
        (id tg : String) (job : Job) (cf : Config) (vaultToken : String),
        ((∃ msg, GetTaskEnv f c (some td) node (some t) (some ⟨id, some job, tg⟩) (some cf)
            vaultToken = Outcome.error msg) ↔ t.Driver ∉ registeredNames) ∧
        ((∃ env, GetTaskEnv f c (some td) node (some t) (some ⟨id, some job, tg⟩) (some cf)
            vaultToken = Outcome.ok env) ↔ t.Driver ∈ registeredNames) := by
  refine ⟨fun _ _ _ _ _ _ _ => rfl, rfl, ?_⟩
  intro f c td node t id tg job cf vaultToken
  rcases NewDriver_cases f t.Driver NewEmptyDriverContext with ⟨hin, drv, hd⟩ | ⟨hout, _⟩
  · obtain ⟨env, he, _⟩ := GetTaskEnv_resolved f c td node t id tg job cf vaultToken drv hd
    constructor
    · constructor
      · rintro ⟨msg, hm⟩
        rw [he] at hm
        exact Outcome.noConfusion hm
      · intro h
        exact absurd hin h
    · exact ⟨fun _ => hin, fun _ => ⟨env, he⟩⟩
  · have he := GetTaskEnv_unknown f c (some td) node t id tg job (some cf) vaultToken hout
    constructor
    · exact ⟨fun _ => hout, fun _ => ⟨_, he⟩⟩
    · constructor
      · rintro ⟨env, hm⟩
        rw [he] at hm
        exact Outcome.noConfusion hm
      · intro h
        exact absurd h hout

end Driver

namespace Driver.Store

/-! ## Memory: `read`, `writeAt`, `alloc` and `append` -/

theorem getElem?_read (mem : Memory) (s : Slice) (j : Nat) :
    (read mem s)[j]? = if j < s.len then mem[s.ptr + j]? else none := by
  unfold read
  rw [List.getElem?_take, List.getElem?_drop]

theorem length_read (mem : Memory) (s : Slice) (h : s.ptr + s.len ≤ mem.length) :
    (read mem s).length = s.len := by
  unfold read
  rw [List.length_take, List.length_drop]
  omega

theorem length_writeAt (mem : Memory) (p : Nat) (items : List String) :
    (writeAt mem p items).length = mem.length := by
  induction items generalizing mem p with
  | nil => rfl
  | cons x xs ih => simp [writeAt, ih]

theorem getElem?_writeAt (mem : Memory) (p : Nat) (items : List String) (q : Nat)
    (h : p + items.length ≤ mem.length) :
    (writeAt mem p items)[q]? =
      if p ≤ q ∧ q < p + items.length then items[q - p]? else mem[q]? := by
  induction items generalizing mem p with
  | nil =>
    have hn : ¬ (p ≤ q ∧ q < p + ([] : List String).length) := by
      simp only [List.length_nil]
      omega
    rw [if_neg hn]
    rfl
  | cons x xs ih =>
    simp only [writeAt, List.length_cons] at h ⊢
    rw [ih (mem.set p x) (p + 1) (by simp; omega)]
    by_cases h1 : p + 1 ≤ q ∧ q < p + 1 + xs.length
    · have h2 : p ≤ q ∧ q < p + (xs.length + 1) := by omega
      rw [if_pos h1, if_pos h2]
      have : q - p = (q - (p + 1)) + 1 := by omega
      rw [this, List.getElem?_cons_succ]
    · rw [if_neg h1, List.getElem?_set]
      by_cases h3 : p = q
      · subst h3
        have h2 : p ≤ p ∧ p < p + (xs.length + 1) := by omega
        have h4 : p < mem.length := by omega
        simp [h2, h4]
      · have h2 : ¬ (p ≤ q ∧ q < p + (xs.length + 1)) := by omega
        rw [if_neg h3, if_neg h2]

/-- A list read through a slice depends only on the cells the slice covers. -/
theorem read_congr (mem mem1 : Memory) (s : Slice)
    (h : ∀ q, s.ptr ≤ q → q < s.ptr + s.len → mem1[q]? = mem[q]?) :
    read mem1 s = read mem s := by
  apply List.ext_getElem?
  intro j
  rw [getElem?_read, getElem?_read]
  by_cases hj : j < s.len
  · rw [if_pos hj, if_pos hj]
    exact h _ (by omega) (by omega)
  · rw [if_neg hj, if_neg hj]


theorem validSlice_iff (mem : Memory) (s : Slice) :
    validSlice mem s = true ↔ s.len ≤ s.cap ∧ s.ptr + s.cap ≤ mem.length := by
  simp [validSlice]

theorem validSlice_mono (mem mem1 : Memory) (s : Slice) (h : validSlice mem s = true)
    (hl : mem.length ≤ mem1.length) : validSlice mem1 s = true := by
  rw [validSlice_iff] at h ⊢
  omega

theorem disjoint_iff (s t : Slice) :
    disjoint s t = true ↔
      s.cap = 0 ∨ t.cap = 0 ∨ s.ptr + s.cap ≤ t.ptr ∨ t.ptr + t.cap ≤ s.ptr := by
  simp [disjoint, or_assoc]

theorem disjoint_comm (s t : Slice) (h : disjoint s t = true) : disjoint t s = true := by
  rw [disjoint_iff] at h ⊢
  omega

/-- What `alloc` returns. -/
theorem alloc_spec (mem : Memory) (items : List String) (cap : Nat) :
    read (alloc mem items cap).1 (alloc mem items cap).2 = items ∧
      validSlice (alloc mem items cap).1 (alloc mem items cap).2 = true ∧
      mem.length ≤ (alloc mem items cap).1.length ∧
      (∀ q, q < mem.length → (alloc mem items cap).1[q]? = mem[q]?) ∧
      (alloc mem items cap).2.ptr = mem.length ∧
      (alloc mem items cap).2.len = items.length := by
  refine ⟨?_, ?_, ?_, ?_, rfl, rfl⟩
  · simp only [alloc, read, List.append_assoc]
    rw [List.drop_left, List.take_left]
  · rw [validSlice_iff]
    simp only [alloc, List.length_append, List.length_replicate]
    omega
  · simp only [alloc, List.length_append]
    omega
  · intro q hq
    simp only [alloc, List.append_assoc]
    exact List.getElem?_append_left hq

/-- What `append` returns on a well-formed slice. -/
theorem append_spec (g : Nat → Nat → Nat) (mem : Memory) (s : Slice) (items : List String)
    (hv : validSlice mem s = true) :
    read (append g mem s items).1 (append g mem s items).2 = read mem s ++ items ∧
      StepsFrom mem s (append g mem s items).1 (append g mem s items).2 ∧
      (append g mem s items).2.len = s.len + items.length := by
  rw [validSlice_iff] at hv
  unfold append
  by_cases hc : s.len + items.length ≤ s.cap
  · rw [if_pos hc]
    have hfit : s.ptr + s.len + items.length ≤ mem.length := by omega
    refine ⟨?_, ⟨?_, ?_, ?_, Or.inl ⟨rfl, rfl⟩⟩, rfl⟩
    · apply List.ext_getElem?
      intro j
      rw [getElem?_read, List.getElem?_append]
      simp only []
      rw [getElem?_writeAt mem (s.ptr + s.len) items _ hfit, length_read mem s (by omega)]
      by_cases h1 : j < s.len
      · have h2 : ¬ (s.ptr + s.len ≤ s.ptr + j ∧ s.ptr + j < s.ptr + s.len + items.length) := by
          omega
        have h3 : j < s.len + items.length := by omega
        rw [if_pos h3, if_neg h2, if_pos h1, getElem?_read, if_pos h1]
      · by_cases h3 : j < s.len + items.length
        · have h2 : s.ptr + s.len ≤ s.ptr + j ∧ s.ptr + j < s.ptr + s.len + items.length := by
            omega
          rw [if_pos h3, if_pos h2, if_neg h1]
          congr 1
          omega
        · rw [if_neg h3, if_neg h1]
          symm
          apply List.getElem?_eq_none
          omega
    · rw [validSlice_iff]
      simp only [length_writeAt]
      omega
    · simp only [length_writeAt]
      exact Nat.le_refl _
    · intro q _ hq
      simp only []
      rw [getElem?_writeAt mem (s.ptr + s.len) items _ hfit]
      have h2 : ¬ (s.ptr + s.len ≤ q ∧ q < s.ptr + s.len + items.length) := by omega
      rw [if_neg h2]
  · rw [if_neg hc]
    obtain ⟨h1, h2, h3, h4, h5, h6⟩ :=
      alloc_spec mem (read mem s ++ items) (g s.cap (s.len + items.length))
    refine ⟨h1, ⟨h2, h3, fun q hq _ => h4 q hq, Or.inr (by rw [h5])⟩, ?_⟩
    rw [h6, List.length_append, length_read mem s (by omega)]

theorem StepsFrom.trans {mem mem1 mem2 : Memory} {s s1 s2 : Slice}
    (h1 : StepsFrom mem s mem1 s1) (h2 : StepsFrom mem1 s1 mem2 s2) :
    StepsFrom mem s mem2 s2 := by
  obtain ⟨_, hl1, hf1, hp1⟩ := h1
  obtain ⟨hv2, hl2, hf2, hp2⟩ := h2
  refine ⟨hv2, by omega, ?_, ?_⟩
  · intro q hq hout
    rw [hf2 q (by omega) (by omega), hf1 q hq hout]
  · rcases hp2 with ⟨e1, e2⟩ | hfresh
    · rcases hp1 with ⟨e3, e4⟩ | hfresh1
      · exact Or.inl ⟨by omega, by omega⟩
      · exact Or.inr (by omega)
    · exact Or.inr (by omega)

theorem StepsFrom.refl {mem : Memory} {s : Slice} (hv : validSlice mem s = true) :
    StepsFrom mem s mem s :=
  ⟨hv, Nat.le_refl _, fun _ _ _ => rfl, Or.inl ⟨rfl, rfl⟩⟩

/-- A well-formed slice whose array is disjoint from the array of `s` reads
the same after steps on `s`. -/
theorem StepsFrom.read_eq {mem mem1 : Memory} {s s1 t : Slice}
    (h : StepsFrom mem s mem1 s1) (ht : validSlice mem t = true)
    (hd : disjoint s t = true) : read mem1 t = read mem t := by
  obtain ⟨_, _, hf, _⟩ := h
  rw [validSlice_iff] at ht
  rw [disjoint_iff] at hd
  apply read_congr
  intro q h1 h2
  exact hf q (by omega) (by omega)


/-! ## The loops of `Merge` over the memory -/

theorem getD_eq_of_read (mem : Memory) (v : Slice) (j : Nat) (item : String)
    (h : (read mem v)[j]? = some item) : mem.getD (v.ptr + j) "" = item := by
  rw [getElem?_read] at h
  by_cases hj : j < v.len
  · rw [if_pos hj] at h
    rw [List.getD_eq_getElem?_getD, h]
    rfl
  · rw [if_neg hj] at h
    exact Option.noConfusion h

/-- The `OUTER` loop over the elements `j, j+1, ...` of `v`: the list under
`k` becomes `mergeList` of the list it was and the elements visited; the
slices of the other kinds stay. -/
theorem mergeItems_spec (g : Nat → Nat → Nat) (k : String) (v : Slice) (n : Nat) :
    ∀ (j : Nat) (mem : Memory) (m : SliceMap) (cur : Slice),
      m.lookup k = some cur → validSlice mem cur = true → validSlice mem v = true →
      disjoint cur v = true → j + n = v.len →
      ∃ mem1 m1 cur1, mergeItems g k v n j (mem, m) = (mem1, m1) ∧
        m1.lookup k = some cur1 ∧ (∀ k1, k1 ≠ k → m1.lookup k1 = m.lookup k1) ∧
        StepsFrom mem cur mem1 cur1 ∧
        read mem1 cur1 = mergeList (read mem cur) ((read mem v).drop j) := by
  induction n with
  | zero =>
    intro j mem m cur hcur hvc hvv _ hj
    refine ⟨mem, m, cur, rfl, hcur, fun _ _ => rfl, StepsFrom.refl hvc, ?_⟩
    have hlen : (read mem v).length = v.len :=
      length_read mem v (by rw [validSlice_iff] at hvv; omega)
    rw [List.drop_eq_nil_of_le (by omega)]
    rfl
  | succ n ih =>
    intro j mem m cur hcur hvc hvv hd hj
    have hlen : (read mem v).length = v.len :=
      length_read mem v (by rw [validSlice_iff] at hvv; omega)
    have hjl : j < (read mem v).length := by omega
    have hdrop : (read mem v).drop j = (read mem v)[j] :: (read mem v).drop (j + 1) :=
      List.drop_eq_getElem_cons hjl
    have hitem : mem.getD (v.ptr + j) "" = (read mem v)[j] :=
      getD_eq_of_read mem v j _ (List.getElem?_eq_getElem hjl)
    rw [hdrop, mergeList_cons]
    simp only [mergeItems, hcur, Option.getD_some, hitem]
    by_cases hc : containsItem (read mem v)[j] (read mem cur) = true
    · rw [if_pos hc, if_pos hc]
      exact ih (j + 1) mem m cur hcur hvc hvv hd (by omega)
    · rw [if_neg hc, if_neg hc]
      obtain ⟨hread, hstep, _⟩ := append_spec g mem cur [(read mem v)[j]] hvc
      have hd1 : disjoint (append g mem cur [(read mem v)[j]]).2 v = true := by
        obtain ⟨_, _, _, hp⟩ := hstep
        rw [validSlice_iff] at hvv hvc
        rw [disjoint_iff] at hd ⊢
        omega
      have hvv1 : validSlice (append g mem cur [(read mem v)[j]]).1 v = true :=
        validSlice_mono _ _ _ hvv hstep.2.1
      obtain ⟨mem1, m1, cur1, h1, h2, h3, h4, h5⟩ :=
        ih (j + 1) (append g mem cur [(read mem v)[j]]).1
          (m.insert k (append g mem cur [(read mem v)[j]]).2)
          (append g mem cur [(read mem v)[j]]).2 (AList.lookup_insert m) hstep.1 hvv1 hd1
          (by omega)
      refine ⟨mem1, m1, cur1, h1, h2, ?_, hstep.trans h4, ?_⟩
      · intro k1 hk
        rw [h3 k1 hk]
        exact AList.lookup_insert_ne hk
      · rw [h5, hread, hstep.read_eq hvv hd]


/-- One round of the loop of `Merge` on a non-nil map over the memory. -/
theorem mergeKind_store (g : Nat → Nat → Nat) (mem : Memory) (m : SliceMap) (k : String)
    (v : Slice)
    (hm : ∀ s, m.lookup k = some s → validSlice mem s = true)
    (hvv : validSlice mem v = true)
    (hd : ∀ s, m.lookup k = some s → disjoint s v = true) :
    ∃ mem1 m1 s1, mergeKind g (mem, some m) k v = some (mem1, some m1) ∧
      mem.length ≤ mem1.length ∧ m1.lookup k = some s1 ∧ validSlice mem1 s1 = true ∧
      read mem1 s1 = mergeVal ((m.lookup k).map (read mem)) (read mem v) ∧
      ((s1 = v ∧ mem1 = mem) ∨ ∃ s, m.lookup k = some s ∧ StepsFrom mem s mem1 s1) ∧
      (∀ k1, k1 ≠ k → m1.lookup k1 = m.lookup k1) ∧
      (∀ t, validSlice mem t = true → (∀ s, m.lookup k = some s → disjoint s t = true) →
        read mem1 t = read mem t) := by
  by_cases h0 : ((m.lookup k).getD nilSlice).len = 0
  · refine ⟨mem, m.insert k v, v, ?_, Nat.le_refl _, AList.lookup_insert m, hvv, ?_,
      Or.inl ⟨rfl, rfl⟩, fun k1 hk => AList.lookup_insert_ne hk, fun _ _ _ => rfl⟩
    · simp only [mergeKind, h0, if_true]
    · have hl : (((m.lookup k).map (read mem)).getD []).length = 0 := by
        cases hl : m.lookup k with
        | none => rfl
        | some s =>
          rw [hl] at h0
          have hs := hm s hl
          rw [validSlice_iff] at hs
          simp only [Option.map_some', Option.getD_some] at h0 ⊢
          rw [length_read mem s (by omega)]
          exact h0
      rw [mergeVal, if_pos hl]
  · cases hl : m.lookup k with
    | none =>
      rw [hl] at h0
      exact absurd rfl h0
    | some cur =>
      rw [hl] at h0
      simp only [Option.getD_some] at h0
      have hvc := hm cur hl
      obtain ⟨mem1, m1, cur1, h1, h2, h3, h4, h5⟩ :=
        mergeItems_spec g k v v.len 0 mem m cur hl hvc hvv (hd cur hl) (by omega)
      refine ⟨mem1, m1, cur1, ?_, h4.2.1, h2, h4.1, ?_, Or.inr ⟨cur, rfl, h4⟩, h3, ?_⟩
      · simp only [mergeKind, hl, Option.getD_some, h0, if_false, h1]
      · have hlen : ¬ (((some cur).map (read mem)).getD []).length = 0 := by
          rw [validSlice_iff] at hvc
          simp only [Option.map_some', Option.getD_some]
          rw [length_read mem cur (by omega)]
          exact h0
        rw [h5, mergeVal, if_neg hlen]
        simp
      · intro t ht hdt
        exact h4.read_eq ht (hdt cur rfl)

/-- The whole loop of `Merge` over the memory, on entries that name each kind
at most once: under a kind of the entries the list becomes `mergeVal` of what
it was and the list of the entry, the other kinds keep their lists, and every
well-formed slice away from the arrays of the visited kinds reads as before. -/
theorem mergeLoop_store (g : Nat → Nat → Nat) (es : List (Sigma fun _ : String => Slice))
    (hnd : es.NodupKeys) :
    ∀ (mem : Memory) (m : SliceMap),
      (∀ k s, m.lookup k = some s → validSlice mem s = true) →
      (∀ e ∈ es, validSlice mem e.2 = true) →
      (∀ k s k1 s1, k ∈ es.keys → m.lookup k = some s → m.lookup k1 = some s1 → k1 ≠ k →
        disjoint s s1 = true) →
      (∀ k s, k ∈ es.keys → m.lookup k = some s → ∀ e ∈ es, disjoint s e.2 = true) →
      ∃ mem1 m1, mergeLoop g es (mem, some m) = some (mem1, some m1) ∧
        mem.length ≤ mem1.length ∧
        (∀ k s, m1.lookup k = some s → validSlice mem1 s = true) ∧
        (∀ k, (m1.lookup k).map (read mem1) =
          match es.dlookup k with
          | none => (m.lookup k).map (read mem)
          | some v => some (mergeVal ((m.lookup k).map (read mem)) (read mem v))) ∧
        (∀ t, validSlice mem t = true →
          (∀ k s, k ∈ es.keys → m.lookup k = some s → disjoint s t = true) →
          read mem1 t = read mem t) := by
  induction es with
  | nil =>
    intro mem m hm _ _ _
    exact ⟨mem, m, rfl, Nat.le_refl _, hm, fun k => by simp, fun _ _ _ => rfl⟩
  | cons e rest ih =>
    intro mem m hm he hsep hap
    obtain ⟨ke, ve⟩ := e
    have hnd2 := List.nodupKeys_cons.1 hnd
    have hke : ke ∈ (⟨ke, ve⟩ :: rest : List (Sigma fun _ : String => Slice)).keys := by
      simp [List.keys]
    have hrest : ∀ k, k ∈ rest.keys →
        k ∈ (⟨ke, ve⟩ :: rest : List (Sigma fun _ : String => Slice)).keys := by
      intro k hk
      simp only [List.keys, List.map_cons, List.mem_cons]
      exact Or.inr hk
    have hne : ∀ k, k ∈ rest.keys → k ≠ ke := by
      intro k hk hkk
      exact hnd2.1 (hkk ▸ hk)
    obtain ⟨mem1, m1, s1, h1, hlen1, hs1, hv1, hr1, hloc, hoth, hframe⟩ :=
      mergeKind_store g mem m ke ve (fun s hs => hm ke s hs)
        (he ⟨ke, ve⟩ (List.mem_cons_self _ _))
        (fun s hs => hap ke s hke hs ⟨ke, ve⟩ (List.mem_cons_self _ _))
    have hm1 : ∀ k s, m1.lookup k = some s → validSlice mem1 s = true := by
      intro k s hs
      by_cases hk : k = ke
      · subst hk
        rw [hs1] at hs
        cases hs
        exact hv1
      · rw [hoth k hk] at hs
        exact validSlice_mono _ _ _ (hm k s hs) hlen1
    have he1 : ∀ e ∈ rest, validSlice mem1 e.2 = true := fun e hmem =>
      validSlice_mono _ _ _ (he e (List.mem_cons_of_mem _ hmem)) hlen1
    have hsep1 : ∀ k s k1 s2, k ∈ rest.keys → m1.lookup k = some s →
        m1.lookup k1 = some s2 → k1 ≠ k → disjoint s s2 = true := by
      intro k s k1 s2 hk hs hs2 hkk
      have hkne := hne k hk
      rw [hoth k hkne] at hs
      by_cases hk1 : k1 = ke
      · subst hk1
        rw [hs1] at hs2
        cases hs2
        rcases hloc with ⟨rfl, _⟩ | ⟨s0, hs0, hstep⟩
        · exact hap k s (hrest k hk) hs ⟨k1, s1⟩ (List.mem_cons_self _ _)
        · have hd0 := hsep k s k1 s0 (hrest k hk) hs hs0 hkk
          have hvs := hm k s hs
          obtain ⟨_, _, _, hp⟩ := hstep
          rw [validSlice_iff] at hvs
          rw [disjoint_iff] at hd0 ⊢
          omega
      · rw [hoth k1 hk1] at hs2
        exact hsep k s k1 s2 (hrest k hk) hs hs2 hkk
    have hap1 : ∀ k s, k ∈ rest.keys → m1.lookup k = some s →
        ∀ e ∈ rest, disjoint s e.2 = true := by
      intro k s hk hs e hmem
      rw [hoth k (hne k hk)] at hs
      exact hap k s (hrest k hk) hs e (List.mem_cons_of_mem _ hmem)
    obtain ⟨mem2, m2, h2, hlen2, hm2, hlook2, hframe2⟩ :=
      ih hnd2.2 mem1 m1 hm1 he1 hsep1 hap1
    have hkeep : ∀ k, k ≠ ke → (m1.lookup k).map (read mem1) = (m.lookup k).map (read mem) := by
      intro k hk
      rw [hoth k hk]
      cases hl : m.lookup k with
      | none => rfl
      | some s =>
        simp only [Option.map_some']
        rw [hframe s (hm k s hl) (fun s0 hs0 => hsep ke s0 k s hke hs0 hl hk)]
    refine ⟨mem2, m2, ?_, by omega, hm2, ?_, ?_⟩
    · simp only [mergeLoop, h1, h2]
    · intro k
      rw [hlook2 k]
      by_cases hk : k = ke
      · subst hk
        have hnone : rest.dlookup k = none := List.dlookup_eq_none.2 hnd2.1
        rw [hnone, List.dlookup_cons_eq]
        simp only [hs1, Option.map_some', hr1]
      · rw [List.dlookup_cons_ne _ _ hk, hkeep k hk]
        cases hl : rest.dlookup k with
        | none => rfl
        | some v =>
          have hvmem : (⟨k, v⟩ : Sigma fun _ : String => Slice) ∈ rest :=
            List.of_mem_dlookup hl
          have hvv := he ⟨k, v⟩ (List.mem_cons_of_mem _ hvmem)
          simp only []
          rw [hframe v hvv (fun s0 hs0 =>
            hap ke s0 hke hs0 ⟨k, v⟩ (List.mem_cons_of_mem _ hvmem))]
    · intro t ht hdt
      rw [hframe2 t (validSlice_mono _ _ _ ht hlen1)
        (fun k s hk hs => hdt k s (hrest k hk) (by rw [← hoth k (hne k hk)]; exact hs)),
        hframe t ht (fun s hs => hdt ke s hke hs)]


/-! ## A `Merge` that finds nothing to add -/

/-- The `OUTER` loop changes nothing when the list under `k` already holds
every element of `v`. -/
theorem mergeItems_noop (g : Nat → Nat → Nat) (k : String) (v : Slice) (n : Nat) :
    ∀ (j : Nat) (mem : Memory) (m : SliceMap) (cur : Slice),
      m.lookup k = some cur → validSlice mem v = true → j + n = v.len →
      (∀ x ∈ read mem v, x ∈ read mem cur) →
      mergeItems g k v n j (mem, m) = (mem, m) := by
  induction n with
  | zero => intro j mem m cur _ _ _ _; rfl
  | succ n ih =>
    intro j mem m cur hcur hvv hj hall
    have hlen : (read mem v).length = v.len :=
      length_read mem v (by rw [validSlice_iff] at hvv; omega)
    have hjl : j < (read mem v).length := by omega
    have hitem : mem.getD (v.ptr + j) "" = (read mem v)[j] :=
      getD_eq_of_read mem v j _ (List.getElem?_eq_getElem hjl)
    have hc : containsItem (read mem v)[j] (read mem cur) = true :=
      (containsItem_iff _ _).2 (hall _ (List.getElem_mem hjl))
    simp only [mergeItems, hcur, Option.getD_some, hitem, hc, if_true]
    exact ih (j + 1) mem m cur hcur hvv (by omega) hall

/-- The loop of `Merge` leaves the memory as it is when, for every entry, the
receiver lists nothing under the kind or already lists every id of the entry;
it then only stores the slice of the entry under the kinds of the first sort. -/
theorem mergeLoop_noop (g : Nat → Nat → Nat) (es : List (Sigma fun _ : String => Slice))
    (hnd : es.NodupKeys)
    (mem : Memory) :
    ∀ (m : SliceMap), (∀ e ∈ es, validSlice mem e.2 = true) →
      (∀ e ∈ es, ((m.lookup e.1).getD nilSlice).len = 0 ∨
        ∃ cur, m.lookup e.1 = some cur ∧ ∀ x ∈ read mem e.2, x ∈ read mem cur) →
      ∃ m1, mergeLoop g es (mem, some m) = some (mem, some m1) ∧
        ∀ k, m1.lookup k =
          match es.dlookup k with
          | none => m.lookup k
          | some v => if ((m.lookup k).getD nilSlice).len = 0 then some v else m.lookup k := by
  induction es with
  | nil =>
    intro m _ _
    exact ⟨m, rfl, fun k => by simp⟩
  | cons e rest ih =>
    intro m he h
    obtain ⟨ke, ve⟩ := e
    have hnd2 := List.nodupKeys_cons.1 hnd
    have hstep : ∃ m1, mergeKind g (mem, some m) ke ve = some (mem, some m1) ∧
        m1.lookup ke = (if ((m.lookup ke).getD nilSlice).len = 0 then some ve
          else m.lookup ke) ∧
        ∀ k1, k1 ≠ ke → m1.lookup k1 = m.lookup k1 := by
      by_cases h0 : ((m.lookup ke).getD nilSlice).len = 0
      · refine ⟨m.insert ke ve, ?_, ?_, fun k1 hk => AList.lookup_insert_ne hk⟩
        · simp only [mergeKind, h0, if_true]
        · rw [if_pos h0]
          exact AList.lookup_insert m
      · rcases h ⟨ke, ve⟩ (List.mem_cons_self _ _) with hz | ⟨cur, hcur, hall⟩
        · exact absurd hz h0
        · refine ⟨m, ?_, by rw [if_neg h0], fun _ _ => rfl⟩
          have hno := mergeItems_noop g ke ve ve.len 0 mem m cur hcur
            (he ⟨ke, ve⟩ (List.mem_cons_self _ _)) (by omega) hall
          simp only [mergeKind, h0, if_false, hno]
    obtain ⟨m1, h1, hk1, hoth⟩ := hstep
    have hne : ∀ e ∈ rest, e.1 ≠ ke := by
      intro e hmem hkk
      have hin : e.1 ∈ rest.keys := List.mem_keys_of_mem hmem
      rw [hkk] at hin
      exact hnd2.1 hin
    obtain ⟨m2, h2, hlook2⟩ := ih hnd2.2 m1
      (fun e hmem => he e (List.mem_cons_of_mem _ hmem))
      (fun e hmem => by
        rw [hoth e.1 (hne e hmem)]
        exact h e (List.mem_cons_of_mem _ hmem))
    refine ⟨m2, by simp only [mergeLoop, h1, h2], ?_⟩
    intro k
    rw [hlook2 k]
    by_cases hk : k = ke
    · subst hk
      have hnone : rest.dlookup k = none := List.dlookup_eq_none.2 hnd2.1
      rw [hnone, List.dlookup_cons_eq]
      exact hk1
    · rw [List.dlookup_cons_ne _ _ hk, hoth k hk]


/-! ## Maps of slices -/

theorem validMap_entry (mem : Memory) (m : SliceMap) (h : validMap mem m = true)
    (e : Sigma fun _ : String => Slice) (he : e ∈ m.entries) : validSlice mem e.2 = true := by
  unfold validMap at h
  rw [List.all_eq_true] at h
  exact h e he

theorem validMap_lookup (mem : Memory) (m : SliceMap) (h : validMap mem m = true)
    (k : String) (s : Slice) (hs : m.lookup k = some s) : validSlice mem s = true :=
  validMap_entry mem m h ⟨k, s⟩ (AList.mem_lookup_iff.1 hs)

theorem separate_lookup (m : SliceMap) (h : separate m = true) (k : String) (s : Slice)
    (k1 : String) (s1 : Slice) (hs : m.lookup k = some s) (hs1 : m.lookup k1 = some s1)
    (hk : k1 ≠ k) : disjoint s s1 = true := by
  unfold separate at h
  rw [List.all_eq_true] at h
  have h1 := h ⟨k, s⟩ (AList.mem_lookup_iff.1 hs)
  rw [List.all_eq_true] at h1
  have h2 := h1 ⟨k1, s1⟩ (AList.mem_lookup_iff.1 hs1)
  simp only [Bool.or_eq_true, decide_eq_true_eq] at h2
  rcases h2 with h2 | h2
  · exact absurd h2.symm hk
  · exact h2

theorem apart_lookup (m om : SliceMap) (h : apart m om = true) (k : String) (s : Slice)
    (hs : m.lookup k = some s) (e : Sigma fun _ : String => Slice) (he : e ∈ om.entries) :
    disjoint s e.2 = true := by
  unfold apart at h
  rw [List.all_eq_true] at h
  have h1 := h ⟨k, s⟩ (AList.mem_lookup_iff.1 hs)
  rw [List.all_eq_true] at h1
  exact h1 e he

theorem lookup_of_get (w : World) (r : Nat) (m : SliceMap)
    (hr : w.ledgers.get? r = some (some m)) (k : String) :
    w.lookup r k = (m.lookup k).map (read w.mem) := by
  simp only [World.lookup, hr]

theorem lookup_of_nil_map (w : World) (r : Nat) (hr : w.ledgers.get? r = some none)
    (k : String) : w.lookup r k = none := by
  simp only [World.lookup, hr]

theorem get_set_self (l : List (Option SliceMap)) (r : Nat) (x y : Option SliceMap)
    (hr : l.get? r = some x) : (l.set r y).get? r = some y := by
  rw [List.get?_eq_getElem?] at hr ⊢
  have hlt : r < l.length := by
    by_contra hn
    rw [List.getElem?_eq_none (by omega)] at hr
    exact Option.noConfusion hr
  rw [List.getElem?_set_self hlt]

theorem get_set_other (l : List (Option SliceMap)) (r o : Nat) (y : Option SliceMap)
    (h : r ≠ o) : (l.set r y).get? o = l.get? o := by
  rw [List.get?_eq_getElem?, List.get?_eq_getElem?, List.getElem?_set_ne h]

theorem firstIndex_lt (needle : String) (l : List String) (i : Nat)
    (h : firstIndex needle l = some i) : i < l.length := by
  induction l generalizing i with
  | nil => simp [firstIndex] at h
  | cons item rest ih =>
    by_cases hi : item = needle
    · simp [firstIndex, hi] at h
      subst h
      simp
    · simp only [firstIndex, hi, if_false, Option.map_eq_some'] at h
      obtain ⟨j, hj, rfl⟩ := h
      have := ih j hj
      simp only [List.length_cons]
      omega

theorem read_take (mem : Memory) (p n c i c1 : Nat) (h : i ≤ n) :
    read mem ⟨p, i, c1⟩ = (read mem ⟨p, n, c⟩).take i := by
  simp only [read]
  rw [List.take_take, Nat.min_eq_left h]

theorem read_drop (mem : Memory) (p n c i c1 : Nat) :
    read mem ⟨p + i, n - i, c1⟩ = (read mem ⟨p, n, c⟩).drop i := by
  simp only [read]
  rw [List.drop_take, List.drop_drop]


/-! ## `Add` and `Remove` over the memory -/

theorem ids_of_get (w : World) (r : Nat) (m : SliceMap)
    (hr : w.ledgers.get? r = some (some m)) (k : String) :
    w.ids r k = ((m.lookup k).map (read w.mem)).getD [] := by
  simp only [World.ids, lookup_of_get w r m hr]

theorem lookup_singleton_slice (k : String) (s : Slice) :
    (AList.singleton k s : SliceMap).lookup k = some s := by
  rw [← AList.insert_empty]
  exact AList.lookup_insert _

theorem lookup_singleton_slice_ne (k k1 : String) (s : Slice) (h : k1 ≠ k) :
    (AList.singleton k s : SliceMap).lookup k1 = none := by
  rw [← AList.insert_empty, AList.lookup_insert_ne h]
  exact AList.lookup_empty _

/-- The call `Add` of an id that the kind does not list puts it at the end of
that list; on a ledger whose lists occupy pairwise different arrays it leaves
every other entry as it was. -/
theorem Add_store (w : World) (r : Nat) (k v : String) (h : w.wellFormed r = true)
    (hv : v ∉ w.ids r k) :
    ∃ w1, Add w r k v = some w1 ∧ w1.lookup r k = some (w.ids r k ++ [v]) ∧
      (w.ownsArrays r = true → ∀ k1, k1 ≠ k → w1.lookup r k1 = w.lookup r k1) := by
  unfold World.wellFormed at h
  cases hr : w.ledgers.get? r with
  | none =>
    rw [hr] at h
    exact Bool.noConfusion h
  | some res =>
    cases res with
    | none =>
      obtain ⟨ha1, _, _, _, _, _⟩ := alloc_spec w.mem [v] 1
      refine ⟨⟨(alloc w.mem [v] 1).1,
        w.ledgers.set r (some (AList.singleton k (alloc w.mem [v] 1).2)), w.grow⟩,
        by simp only [Add, hr], ?_, ?_⟩
      · rw [lookup_of_get _ r _ (get_set_self _ r _ _ hr)]
        simp only [World.ids, lookup_of_nil_map w r hr, Option.getD_none, List.nil_append]
        rw [lookup_singleton_slice]
        simp only [Option.map_some', ha1]
      · intro _ k1 hk
        rw [lookup_of_get _ r _ (get_set_self _ r _ _ hr), lookup_of_nil_map w r hr]
        rw [lookup_singleton_slice_ne k k1 _ hk]
        rfl
    | some m =>
      rw [hr] at h
      have hvm : validMap w.mem m = true := h
      have hids := ids_of_get w r m hr k
      cases hl : m.lookup k with
      | none =>
        obtain ⟨ha1, _, _, ha4, _, _⟩ := alloc_spec w.mem [v] 1
        refine ⟨⟨(alloc w.mem [v] 1).1,
          w.ledgers.set r (some (m.insert k (alloc w.mem [v] 1).2)), w.grow⟩,
          by simp only [Add, hr, hl], ?_, ?_⟩
        · rw [lookup_of_get _ r _ (get_set_self _ r _ _ hr), AList.lookup_insert]
          simp only [Option.map_some', ha1, hids, hl, Option.map_none', Option.getD_none,
            List.nil_append]
        · intro _ k1 hk
          rw [lookup_of_get _ r _ (get_set_self _ r _ _ hr), lookup_of_get w r m hr,
            AList.lookup_insert_ne hk]
          cases hl1 : m.lookup k1 with
          | none => rfl
          | some s1 =>
            have hs1 := validMap_lookup _ _ hvm k1 s1 hl1
            rw [validSlice_iff] at hs1
            simp only [Option.map_some']
            rw [read_congr w.mem _ s1 (fun q _ hq => ha4 q (by omega))]
      | some existing =>
        have hve := validMap_lookup _ _ hvm k existing hl
        rw [hids, hl] at hv
        simp only [Option.map_some', Option.getD_some] at hv
        have hc : ¬ containsItem v (read w.mem existing) = true :=
          fun hc => hv ((containsItem_iff _ _).1 hc)
        obtain ⟨hread, hstep, _⟩ := append_spec w.grow w.mem existing [v] hve
        refine ⟨⟨(append w.grow w.mem existing [v]).1,
          w.ledgers.set r (some (m.insert k (append w.grow w.mem existing [v]).2)), w.grow⟩,
          by simp only [Add, hr, hl, hc]; rfl, ?_, ?_⟩
        · rw [lookup_of_get _ r _ (get_set_self _ r _ _ hr), AList.lookup_insert]
          simp only [Option.map_some', hread, hids, hl, Option.getD_some]
        · intro hown k1 hk
          simp only [World.ownsArrays, hr, Bool.and_eq_true] at hown
          have hsep := hown.2
          rw [lookup_of_get _ r _ (get_set_self _ r _ _ hr), lookup_of_get w r m hr,
            AList.lookup_insert_ne hk]
          cases hl1 : m.lookup k1 with
          | none => rfl
          | some s1 =>
            simp only [Option.map_some']
            rw [hstep.read_eq (validMap_lookup _ _ hvm k1 s1 hl1)
              (separate_lookup m hsep k existing k1 s1 hl hl1 hk)]


/-- The call `Remove` of an id that the kind lists returns true, takes the
first occurrence out of that list and deletes the kind when nothing is left;
on a ledger whose lists occupy pairwise different arrays it leaves every other
entry as it was. -/
theorem Remove_store (w : World) (r : Nat) (k needle : String)
    (h : w.wellFormed r = true) (hin : needle ∈ w.ids r k) :
    ∃ w1, Remove w r k needle = some (w1, true) ∧
      w1.lookup r k =
        (if (w.ids r k).erase needle = [] then none
         else some ((w.ids r k).erase needle)) ∧
      (w.ownsArrays r = true → ∀ k1, k1 ≠ k → w1.lookup r k1 = w.lookup r k1) := by
  unfold World.wellFormed at h
  cases hr : w.ledgers.get? r with
  | none =>
    rw [hr] at h
    exact Bool.noConfusion h
  | some res =>
    cases res with
    | none =>
      simp [World.ids, lookup_of_nil_map w r hr] at hin
    | some m =>
      rw [hr] at h
      have hvm : validMap w.mem m = true := h
      have hids := ids_of_get w r m hr k
      cases hl : m.lookup k with
      | none =>
        rw [hids, hl] at hin
        simp at hin
      | some hay =>
        rw [hl] at hids
        simp only [Option.map_some', Option.getD_some] at hids
        rw [hids] at hin ⊢
        have hvh := validMap_lookup _ _ hvm k hay hl
        have hvh2 := hvh
        rw [validSlice_iff] at hvh2
        obtain ⟨i, hi⟩ := firstIndex_isSome needle _ hin
        have hilt := firstIndex_lt needle _ i hi
        rw [length_read w.mem hay (by omega)] at hilt
        have htd := firstIndex_take_drop needle _ i hi
        have hvd : validSlice w.mem ⟨hay.ptr, i, hay.cap⟩ = true := by
          rw [validSlice_iff]
          simp only []
          omega
        obtain ⟨hread, hstep, _⟩ := append_spec w.grow w.mem ⟨hay.ptr, i, hay.cap⟩
          (read w.mem ⟨hay.ptr + (i + 1), hay.len - (i + 1), hay.cap - (i + 1)⟩) hvd
        have hR : Remove w r k needle =
            (if ((append w.grow w.mem ⟨hay.ptr, i, hay.cap⟩
                (read w.mem ⟨hay.ptr + (i + 1), hay.len - (i + 1),
                  hay.cap - (i + 1)⟩)).2).len = 0 then
              some (⟨(append w.grow w.mem ⟨hay.ptr, i, hay.cap⟩
                (read w.mem ⟨hay.ptr + (i + 1), hay.len - (i + 1), hay.cap - (i + 1)⟩)).1,
                w.ledgers.set r (some ((m.insert k (append w.grow w.mem ⟨hay.ptr, i, hay.cap⟩
                  (read w.mem ⟨hay.ptr + (i + 1), hay.len - (i + 1),
                    hay.cap - (i + 1)⟩)).2).erase k)), w.grow⟩, true)
            else
              some (⟨(append w.grow w.mem ⟨hay.ptr, i, hay.cap⟩
                (read w.mem ⟨hay.ptr + (i + 1), hay.len - (i + 1), hay.cap - (i + 1)⟩)).1,
                w.ledgers.set r (some (m.insert k (append w.grow w.mem ⟨hay.ptr, i, hay.cap⟩
                  (read w.mem ⟨hay.ptr + (i + 1), hay.len - (i + 1),
                    hay.cap - (i + 1)⟩)).2)), w.grow⟩, true)) := by
          simp only [Remove, hr, hl, Option.getD_some, hi, AList.lookup_insert]
        generalize append w.grow w.mem ⟨hay.ptr, i, hay.cap⟩
          (read w.mem ⟨hay.ptr + (i + 1), hay.len - (i + 1), hay.cap - (i + 1)⟩) = a
          at hread hstep hR
        rw [read_take w.mem hay.ptr hay.len hay.cap i hay.cap (by omega),
          read_drop w.mem hay.ptr hay.len hay.cap (i + 1) (hay.cap - (i + 1))] at hread
        have hhay : (⟨hay.ptr, hay.len, hay.cap⟩ : Slice) = hay := rfl
        rw [hhay, htd] at hread
        have hlen2 : a.2.len = ((read w.mem hay).erase needle).length := by
          rw [← hread]
          have hv2 := hstep.1
          rw [validSlice_iff] at hv2
          rw [length_read _ _ (by omega)]
        have hother : w.ownsArrays r = true → ∀ k1, k1 ≠ k → ∀ s1, m.lookup k1 = some s1 →
            read a.1 s1 = read w.mem s1 := by
          intro hown k1 hk s1 hl1
          simp only [World.ownsArrays, hr, Bool.and_eq_true] at hown
          have hsep := hown.2
          apply hstep.read_eq (validMap_lookup _ _ hvm k1 s1 hl1)
          have hd := separate_lookup m hsep k hay k1 s1 hl hl1 hk
          rw [disjoint_iff] at hd ⊢
          exact hd
        rw [hR]
        by_cases he : (read w.mem hay).erase needle = []
        · have hz : a.2.len = 0 := by rw [hlen2, he]; rfl
          rw [if_pos hz, if_pos he]
          refine ⟨_, rfl, ?_, ?_⟩
          · rw [lookup_of_get _ r _ (get_set_self _ r _ _ hr), AList.lookup_erase]
            rfl
          · intro hown k1 hk
            rw [lookup_of_get _ r _ (get_set_self _ r _ _ hr), lookup_of_get w r m hr,
              AList.lookup_erase_ne hk, AList.lookup_insert_ne hk]
            cases hl1 : m.lookup k1 with
            | none => rfl
            | some s1 =>
              simp only [Option.map_some']
              rw [hother hown k1 hk s1 hl1]
        · have hz : ¬ a.2.len = 0 := by
            rw [hlen2]
            exact fun h0 => he (List.length_eq_zero.1 h0)
          rw [if_neg hz, if_neg he]
          refine ⟨_, rfl, ?_, ?_⟩
          · rw [lookup_of_get _ r _ (get_set_self _ r _ _ hr), AList.lookup_insert]
            simp only [Option.map_some', hread]
          · intro hown k1 hk
            rw [lookup_of_get _ r _ (get_set_self _ r _ _ hr), lookup_of_get w r m hr,
              AList.lookup_insert_ne hk]
            cases hl1 : m.lookup k1 with
            | none => rfl
            | some s1 =>
              simp only [Option.map_some']
              rw [hother hown k1 hk s1 hl1]


/-! ## `Merge` between two ledgers -/

theorem validMap_of_lookup (mem : Memory) (m : SliceMap)
    (h : ∀ k s, m.lookup k = some s → validSlice mem s = true) : validMap mem m = true := by
  unfold validMap
  rw [List.all_eq_true]
  intro e he
  exact h e.1 e.2 (AList.mem_lookup_iff.2 he)

theorem lookup_of_entry (m : SliceMap) (e : Sigma fun _ : String => Slice)
    (he : e ∈ m.entries) : m.lookup e.1 = some e.2 :=
  AList.mem_lookup_iff.2 he

/-- What `mergeReady` says when both ledgers have a map. -/
theorem mergeReady_maps (w : World) (r j : Nat) (m om : SliceMap)
    (hr : w.ledgers.get? r = some (some m)) (hj : w.ledgers.get? j = some (some om))
    (hne : j ≠ r) (h : w.mergeReady r (some j) = true) :
    validMap w.mem m = true ∧ separate m = true ∧ validMap w.mem om = true ∧
      apart m om = true := by
  simp only [World.mergeReady, hr, hj, Bool.and_eq_true, Bool.or_eq_true, decide_eq_true_eq] at h
  rcases h.2 with e | h2
  · exact absurd e hne
  · exact ⟨h.1.1, h.1.2, h2.1, h2.2⟩

/-- What `mergeReady` says of the receiver. -/
theorem mergeReady_receiver (w : World) (r : Nat) (o : Option Nat) (m : SliceMap)
    (hr : w.ledgers.get? r = some (some m)) (h : w.mergeReady r o = true) :
    validMap w.mem m = true ∧ separate m = true := by
  simp only [World.mergeReady, hr, Bool.and_eq_true] at h
  exact h.1

/-- One call of `Merge` between two ledgers that have a map, the lists of the
receiver in arrays of their own: the call returns, under a kind of `o` the
list of the receiver becomes `mergeVal` of what it was and the list of `o`,
the other kinds keep their lists, and the lists of `o` read as before. -/
theorem Merge_maps (w : World) (r j : Nat) (m om : SliceMap)
    (hr : w.ledgers.get? r = some (some m)) (hj : w.ledgers.get? j = some (some om))
    (hvm : validMap w.mem m = true) (hsep : separate m = true)
    (hvo : validMap w.mem om = true) (hap : apart m om = true) :
    ∃ mem1 m1, Merge w r (some j) = some ⟨mem1, w.ledgers.set r (some m1), w.grow⟩ ∧
      w.mem.length ≤ mem1.length ∧
      (∀ k s, m1.lookup k = some s → validSlice mem1 s = true) ∧
      (∀ k, (m1.lookup k).map (read mem1) =
        match om.lookup k with
        | none => (m.lookup k).map (read w.mem)
        | some v => some (mergeVal ((m.lookup k).map (read w.mem)) (read w.mem v))) ∧
      (∀ e ∈ om.entries, read mem1 e.2 = read w.mem e.2) := by
  obtain ⟨mem1, m1, h1, hlen, hv1, hview, hframe⟩ :=
    mergeLoop_store w.grow om.entries om.nodupKeys w.mem m
      (fun k s hs => validMap_lookup _ _ hvm k s hs)
      (fun e he => validMap_entry _ _ hvo e he)
      (fun k s k1 s1 _ hs hs1 hk => separate_lookup m hsep k s k1 s1 hs hs1 hk)
      (fun k s _ hs e he => apart_lookup m om hap k s hs e he)
  refine ⟨mem1, m1, ?_, hlen, hv1, hview, ?_⟩
  · simp only [Merge, hr, hj, h1, Option.map_some']
  · intro e he
    exact hframe e.2 (validMap_entry _ _ hvo e he)
      (fun k s _ hs => apart_lookup m om hap k s hs e he)

/-- A call of `Merge` whose receiver already lists, under every kind of `o`,
every id that `o` lists there, writes nothing: the memory is as before and
every ledger reads as before. -/
theorem Merge_settled (w : World) (r j : Nat) (m om : SliceMap)
    (hr : w.ledgers.get? r = some (some m)) (hj : w.ledgers.get? j = some (some om))
    (hvo : validMap w.mem om = true)
    (hall : ∀ e ∈ om.entries, ∃ cur, m.lookup e.1 = some cur ∧
      ∀ x ∈ read w.mem e.2, x ∈ read w.mem cur) :
    ∃ w1, Merge w r (some j) = some w1 ∧ w1.mem = w.mem ∧
      ∀ r1 k, w1.lookup r1 k = w.lookup r1 k := by
  obtain ⟨m1, h1, hm1⟩ := mergeLoop_noop w.grow om.entries om.nodupKeys w.mem m
    (fun e he => validMap_entry _ _ hvo e he)
    (fun e he => by
      obtain ⟨cur, hc, hx⟩ := hall e he
      exact Or.inr ⟨cur, hc, hx⟩)
  refine ⟨⟨w.mem, w.ledgers.set r (some m1), w.grow⟩, ?_, rfl, ?_⟩
  · simp only [Merge, hr, hj, h1, Option.map_some']
  · intro r1 k
    by_cases hr1 : r1 = r
    · subst hr1
      rw [lookup_of_get _ r1 m1 (get_set_self _ r1 _ _ hr), lookup_of_get w r1 m hr, hm1 k]
      cases hd : om.entries.dlookup k with
      | none => rfl
      | some v =>
        simp only []
        by_cases h0 : ((m.lookup k).getD nilSlice).len = 0
        · rw [if_pos h0]
          obtain ⟨cur, hc, hx⟩ := hall ⟨k, v⟩ (List.of_mem_dlookup (Option.mem_def.2 hd))
          simp only [] at hc hx
          rw [hc] at h0 ⊢
          simp only [Option.getD_some] at h0
          have hcur : read w.mem cur = [] := by
            unfold read
            rw [h0]
            rfl
          rw [hcur] at hx
          have hv : read w.mem v = [] :=
            List.eq_nil_iff_forall_not_mem.2 fun x hxv => List.not_mem_nil x (hx x hxv)
          simp only [Option.map_some', hv, hcur]
        · rw [if_neg h0]
    · simp only [World.lookup]
      rw [get_set_other _ r r1 _ (fun h => hr1 h.symm)]

/-- A ledger merged into itself: nothing is written, and every kind keeps its
slice. -/
theorem Merge_self (w : World) (r : Nat) (m : SliceMap)
    (hr : w.ledgers.get? r = some (some m)) (hvm : validMap w.mem m = true) :
    ∃ m1, Merge w r (some r) = some ⟨w.mem, w.ledgers.set r (some m1), w.grow⟩ ∧
      validMap w.mem m1 = true ∧ ∀ k, m1.lookup k = m.lookup k := by
  obtain ⟨m1, h1, hm1⟩ := mergeLoop_noop w.grow m.entries m.nodupKeys w.mem m
    (fun e he => validMap_entry _ _ hvm e he)
    (fun e he => Or.inr ⟨e.2, lookup_of_entry m e he, fun _ hx => hx⟩)
  have hl : ∀ k, m1.lookup k = m.lookup k := by
    intro k
    rw [hm1 k]
    cases hd : m.entries.dlookup k with
    | none => rfl
    | some v =>
      have hv : m.lookup k = some v := hd
      simp only [hv, ite_self]
  refine ⟨m1, ?_, ?_, hl⟩
  · simp only [Merge, hr, h1, Option.map_some']
  · exact validMap_of_lookup _ _ fun k s hs =>
      validMap_lookup _ _ hvm k s ((hl k).symm.trans hs)

/-- The world-level reading of one `Merge` under `mergeReady`. -/
theorem Merge_store (w : World) (r : Nat) (o : Option Nat) (h : w.mergeReady r o = true) :
    ∃ w1, Merge w r o = some w1 ∧
      ∀ k, w1.lookup r k =
        match w.lookupOf o k with
        | none => w.lookup r k
        | some v => some (mergeVal (w.lookup r k) v) := by
  cases hr : w.ledgers.get? r with
  | none =>
    simp only [World.mergeReady, hr] at h
    exact Bool.noConfusion h
  | some res =>
    cases res with
    | none =>
      simp only [World.mergeReady, hr] at h
      exact Bool.noConfusion h
    | some m =>
      cases o with
      | none =>
        refine ⟨w, ?_, fun k => rfl⟩
        simp only [Merge, hr]
      | some j =>
        by_cases hjr : j = r
        · subst hjr
          obtain ⟨m1, h1, _, hl⟩ :=
            Merge_self w j m hr (mergeReady_receiver w j (some j) m hr h).1
          refine ⟨_, h1, ?_⟩
          intro k
          rw [lookup_of_get _ j m1 (get_set_self _ j _ _ hr), World.lookupOf,
            lookup_of_get w j m hr, hl k]
          cases m.lookup k with
          | none => rfl
          | some s =>
            simp only [Option.map_some']
            rw [mergeVal_self]
        cases hj : w.ledgers.get? j with
        | none =>
          simp only [World.mergeReady, hr, hj, Bool.or_false, Bool.and_eq_true,
            decide_eq_true_eq] at h
          exact absurd h.2 hjr
        | some ores =>
          cases ores with
          | none =>
            refine ⟨⟨w.mem, w.ledgers.set r (some m), w.grow⟩, ?_, ?_⟩
            · simp only [Merge, hr, hj, mergeLoop, Option.map_some']
            · intro k
              rw [lookup_of_get _ r m (get_set_self _ r _ _ hr), World.lookupOf,
                lookup_of_nil_map w j hj, lookup_of_get w r m hr]
          | some om =>
            obtain ⟨hvm, hsep, hvo, hap⟩ := mergeReady_maps w r j m om hr hj hjr h
            obtain ⟨mem1, m1, h1, _, _, hview, _⟩ := Merge_maps w r j m om hr hj hvm hsep hvo hap
            refine ⟨_, h1, ?_⟩
            intro k
            rw [lookup_of_get _ r m1 (get_set_self _ r _ _ hr), World.lookupOf,
              lookup_of_get w j om hj, lookup_of_get w r m hr, hview k]
            cases om.lookup k with
            | none => rfl
            | some v => rfl


/-! ## The order in which a map yields its kinds -/

theorem sameUpToOrder_refl (w : World) : w.sameUpToOrder w := by
  refine ⟨rfl, rfl, fun i => ?_⟩
  cases h : w.ledgers.get? i with
  | none => exact True.intro
  | some res =>
    cases res with
    | none => exact True.intro
    | some m => exact List.Perm.refl _

theorem sameUpToOrder_map (w w1 : World) (h : w.sameUpToOrder w1) (r : Nat) (m : SliceMap)
    (hr : w.ledgers.get? r = some (some m)) :
    ∃ m1, w1.ledgers.get? r = some (some m1) ∧ m.entries.Perm m1.entries := by
  have h1 := h.2.2 r
  rw [hr] at h1
  cases h2 : w1.ledgers.get? r with
  | none =>
    rw [h2] at h1
    exact False.elim h1
  | some res =>
    cases res with
    | none =>
      rw [h2] at h1
      exact False.elim h1
    | some m1 =>
      rw [h2] at h1
      exact ⟨m1, rfl, h1⟩

theorem sameUpToOrder_nil (w w1 : World) (h : w.sameUpToOrder w1) (r : Nat)
    (hr : w.ledgers.get? r = some none) : w1.ledgers.get? r = some none := by
  have h1 := h.2.2 r
  rw [hr] at h1
  cases h2 : w1.ledgers.get? r with
  | none =>
    rw [h2] at h1
    exact False.elim h1
  | some res =>
    cases res with
    | none => rfl
    | some m1 =>
      rw [h2] at h1
      exact False.elim h1

theorem sameUpToOrder_none (w w1 : World) (h : w.sameUpToOrder w1) (r : Nat)
    (hr : w.ledgers.get? r = none) : w1.ledgers.get? r = none := by
  have h1 := h.2.2 r
  rw [hr] at h1
  cases h2 : w1.ledgers.get? r with
  | none => rfl
  | some res =>
    rw [h2] at h1
    cases res <;> exact False.elim h1

/-- Worlds that differ in the order of the entries alone read the same. -/
theorem sameUpToOrder_lookup (w w1 : World) (h : w.sameUpToOrder w1) (r : Nat) (k : String) :
    w1.lookup r k = w.lookup r k := by
  cases hr : w.ledgers.get? r with
  | none => simp only [World.lookup, hr, sameUpToOrder_none w w1 h r hr]
  | some res =>
    cases res with
    | none => simp only [World.lookup, hr, sameUpToOrder_nil w w1 h r hr]
    | some m =>
      obtain ⟨m1, hm1, hp⟩ := sameUpToOrder_map w w1 h r m hr
      rw [lookup_of_get w1 r m1 hm1, lookup_of_get w r m hr, h.1, AList.perm_lookup hp]

theorem validMap_perm (mem : Memory) (m m1 : SliceMap) (hp : m.entries.Perm m1.entries)
    (h : validMap mem m = true) : validMap mem m1 = true := by
  unfold validMap at h ⊢
  rw [List.all_eq_true] at h ⊢
  exact fun e he => h e (hp.mem_iff.2 he)

theorem separate_perm (m m1 : SliceMap) (hp : m.entries.Perm m1.entries)
    (h : separate m = true) : separate m1 = true := by
  unfold separate at h ⊢
  rw [List.all_eq_true] at h ⊢
  intro e he
  have h1 := h e (hp.mem_iff.2 he)
  rw [List.all_eq_true] at h1 ⊢
  exact fun e1 he1 => h1 e1 (hp.mem_iff.2 he1)

theorem apart_perm (m m1 om om1 : SliceMap) (hp : m.entries.Perm m1.entries)
    (hpo : om.entries.Perm om1.entries) (h : apart m om = true) : apart m1 om1 = true := by
  unfold apart at h ⊢
  rw [List.all_eq_true] at h ⊢
  intro e he
  have h1 := h e (hp.mem_iff.2 he)
  rw [List.all_eq_true] at h1 ⊢
  exact fun e1 he1 => h1 e1 (hpo.mem_iff.2 he1)

/-- The condition `mergeReady` does not depend on the order of the entries. -/
theorem mergeReady_upToOrder (w w1 : World) (hs : w.sameUpToOrder w1) (r : Nat)
    (o : Option Nat) (h : w.mergeReady r o = true) : w1.mergeReady r o = true := by
  cases hr : w.ledgers.get? r with
  | none =>
    simp only [World.mergeReady, hr] at h
    exact Bool.noConfusion h
  | some res =>
    cases res with
    | none =>
      simp only [World.mergeReady, hr] at h
      exact Bool.noConfusion h
    | some m =>
      obtain ⟨m1, hm1, hp⟩ := sameUpToOrder_map w w1 hs r m hr
      cases o with
      | none =>
        simp only [World.mergeReady, hr, Bool.and_true, Bool.and_eq_true] at h
        simp only [World.mergeReady, hm1, Bool.and_true, Bool.and_eq_true, hs.1]
        exact ⟨validMap_perm _ m m1 hp h.1, separate_perm m m1 hp h.2⟩
      | some j =>
        obtain ⟨hvm, hsep⟩ := mergeReady_receiver w r (some j) m hr h
        have hrec : validMap w.mem m1 = true ∧ separate m1 = true :=
          ⟨validMap_perm _ m m1 hp hvm, separate_perm m m1 hp hsep⟩
        by_cases hjr : j = r
        · simp only [World.mergeReady, hm1, hjr, decide_True, Bool.true_or, Bool.and_true,
            Bool.and_eq_true, hs.1]
          exact hrec
        cases hj : w.ledgers.get? j with
        | none =>
          simp only [World.mergeReady, hr, hj, Bool.or_false, Bool.and_eq_true,
            decide_eq_true_eq] at h
          exact absurd h.2 hjr
        | some ores =>
          cases ores with
          | none =>
            simp only [World.mergeReady, hm1, sameUpToOrder_nil w w1 hs j hj, Bool.and_true,
              Bool.or_true, Bool.and_eq_true, hs.1]
            exact hrec
          | some om =>
            obtain ⟨om1, hom1, hpo⟩ := sameUpToOrder_map w w1 hs j om hj
            obtain ⟨_, _, hvo, hap⟩ := mergeReady_maps w r j m om hr hj hjr h
            simp only [World.mergeReady, hm1, hom1, Bool.and_eq_true, Bool.or_eq_true, hs.1]
            exact ⟨hrec, Or.inr ⟨validMap_perm _ om om1 hpo hvo,
              apart_perm m m1 om om1 hp hpo hap⟩⟩

/-- A call of `Merge` whose receiver already lists, under every kind of `o`,
every id that `o` lists there, writes nothing, in whatever order the maps
yield their kinds. -/
theorem Merge_settled_upToOrder (w w1 : World) (r j : Nat) (m om : SliceMap)
    (hr : w.ledgers.get? r = some (some m)) (hj : w.ledgers.get? j = some (some om))
    (hvo : validMap w.mem om = true)
    (hall : ∀ e ∈ om.entries, ∃ cur, m.lookup e.1 = some cur ∧
      ∀ x ∈ read w.mem e.2, x ∈ read w.mem cur)
    (hs : w.sameUpToOrder w1) :
    ∃ w2, Merge w1 r (some j) = some w2 ∧ w2.mem = w.mem ∧
      ∀ r1 k, w2.lookup r1 k = w.lookup r1 k := by
  obtain ⟨m1, hm1, hp⟩ := sameUpToOrder_map w w1 hs r m hr
  obtain ⟨om1, hom1, hpo⟩ := sameUpToOrder_map w w1 hs j om hj
  obtain ⟨w2, h2, hmem, hl⟩ := Merge_settled w1 r j m1 om1 hm1 hom1
    (hs.1 ▸ validMap_perm _ om om1 hpo hvo)
    (by
      intro e he
      obtain ⟨cur, hc, hx⟩ := hall e (hpo.mem_iff.2 he)
      refine ⟨cur, ?_, ?_⟩
      · rw [← AList.perm_lookup hp]
        exact hc
      · rw [hs.1]
        exact hx)
  refine ⟨w2, h2, hmem.trans hs.1, ?_⟩
  intro r1 k
  rw [hl r1 k, sameUpToOrder_lookup w w1 hs r1 k]


/-! ## Claims on ledgers in memory -/

/-- C1 fails as stated, in two ways. On the world `sharedKindsRev`, where two
kinds of the receiver lie in one array, ledger 0 lists `x` under `k2` after
`r.Merge(o)` and `x, b` after `r.Merge(o); r.Merge(o)`. On the world
`sharedLedgersRev`, where the lists of the receiver lie in different arrays
and one of these holds a list of `o`, ledger 0 lists `c, b` under `k2` after
one call and `c, b, x` after two. -/
theorem Merge_twice_differs_on_shared_array :
    ((Merge sharedKindsRev 0 (some 1)).map (fun w => (w.lookup 0 "k1", w.lookup 0 "k2")) =
        some (some ["a", "x"], some ["x"]) ∧
      ((Merge sharedKindsRev 0 (some 1)).bind fun w => Merge w 0 (some 1)).map
        (fun w => (w.lookup 0 "k1", w.lookup 0 "k2")) =
        some (some ["a", "x"], some ["x", "b"])) ∧
    (sharedLedgersRev.ownsArrays 0 = true ∧
      (Merge sharedLedgersRev 0 (some 1)).map (fun w => (w.lookup 0 "k1", w.lookup 0 "k2")) =
        some (some ["a", "x"], some ["c", "b"]) ∧
      ((Merge sharedLedgersRev 0 (some 1)).bind fun w => Merge w 0 (some 1)).map
        (fun w => (w.lookup 0 "k1", w.lookup 0 "k2")) =
        some (some ["a", "x"], some ["c", "b", "x"])) :=
  ⟨⟨by decide, by decide⟩, by decide, by decide, by decide⟩

/-- C1, amended: `Merge` is idempotent on a receiver whose lists occupy
pairwise different arrays none of which holds a list of the other ledger. For
every ledger `r` with a non-nil map whose lists occupy pairwise different
arrays and every ledger pointer `o` that is nil, or `r` itself, or a ledger
none of whose lists lies in an array of a list of `r` (this is `mergeReady`),
both calls of `r.Merge(o); r.Merge(o)` return, the second call leaves the
memory as it is, and afterwards every ledger has, under every kind, the entry
it had after the first call. The same holds in whatever order the maps yield
their kinds to the second call. -/
theorem Merge_idempotent (w : World) (r : Nat) (o : Option Nat)
    (h : w.mergeReady r o = true) :
    ∃ w1, Merge w r o = some w1 ∧
      (∃ w2, Merge w1 r o = some w2 ∧ w2.mem = w1.mem ∧
        ∀ r1 k, w2.lookup r1 k = w1.lookup r1 k) ∧
      ∀ w1a, w1.sameUpToOrder w1a →
        ∃ w2, Merge w1a r o = some w2 ∧ w2.mem = w1.mem ∧
          ∀ r1 k, w2.lookup r1 k = w1.lookup r1 k := by
  suffices hG : ∃ w1, Merge w r o = some w1 ∧
      ∀ w1a, w1.sameUpToOrder w1a →
        ∃ w2, Merge w1a r o = some w2 ∧ w2.mem = w1.mem ∧
          ∀ r1 k, w2.lookup r1 k = w1.lookup r1 k by
    obtain ⟨w1, h1, hg⟩ := hG
    exact ⟨w1, h1, hg w1 (sameUpToOrder_refl w1), hg⟩
  cases hr : w.ledgers.get? r with
  | none =>
    simp only [World.mergeReady, hr] at h
    exact Bool.noConfusion h
  | some res =>
    cases res with
    | none =>
      simp only [World.mergeReady, hr] at h
      exact Bool.noConfusion h
    | some m =>
      cases o with
      | none =>
        refine ⟨w, by simp only [Merge, hr], ?_⟩
        intro w1a hs
        obtain ⟨m1a, hm1a, _⟩ := sameUpToOrder_map w w1a hs r m hr
        exact ⟨w1a, by simp only [Merge, hm1a], hs.1,
          fun r1 k => sameUpToOrder_lookup w w1a hs r1 k⟩
      | some j =>
        by_cases hjr : j = r
        · subst hjr
          obtain ⟨m1, h1, hv1, _⟩ :=
            Merge_self w j m hr (mergeReady_receiver w j (some j) m hr h).1
          have hr1 : (w.ledgers.set j (some m1)).get? j = some (some m1) :=
            get_set_self _ j _ _ hr
          refine ⟨_, h1, ?_⟩
          intro w1a hs
          exact Merge_settled_upToOrder ⟨w.mem, w.ledgers.set j (some m1), w.grow⟩ w1a j j m1 m1
            hr1 hr1 hv1 (fun e he => ⟨e.2, lookup_of_entry m1 e he, fun _ hx => hx⟩) hs
        cases hj : w.ledgers.get? j with
        | none =>
          simp only [World.mergeReady, hr, hj, Bool.or_false, Bool.and_eq_true,
            decide_eq_true_eq] at h
          exact absurd h.2 hjr
        | some ores =>
          cases ores with
          | none =>
            have hne : r ≠ j := by
              intro e
              rw [e, hj] at hr
              exact Option.noConfusion (Option.some.inj hr)
            have hr1 : (w.ledgers.set r (some m)).get? r = some (some m) :=
              get_set_self _ r _ _ hr
            have hj1 : (w.ledgers.set r (some m)).get? j = some none := by
              rw [get_set_other _ r j _ hne, hj]
            refine ⟨⟨w.mem, w.ledgers.set r (some m), w.grow⟩, ?_, ?_⟩
            · simp only [Merge, hr, hj, mergeLoop, Option.map_some']
            · intro w1a hs
              obtain ⟨m1a, hm1a, _⟩ := sameUpToOrder_map _ w1a hs r m hr1
              have hj1a := sameUpToOrder_nil _ w1a hs j hj1
              refine ⟨⟨w1a.mem, w1a.ledgers.set r (some m1a), w1a.grow⟩, ?_, hs.1, ?_⟩
              · simp only [Merge, hm1a, hj1a, mergeLoop, Option.map_some']
              · intro r1 k
                rw [← sameUpToOrder_lookup _ w1a hs r1 k]
                by_cases e : r1 = r
                · subst e
                  rw [lookup_of_get _ r1 m1a (get_set_self _ r1 _ _ hm1a),
                    lookup_of_get _ r1 m1a hm1a]
                · simp only [World.lookup]
                  rw [get_set_other _ r r1 _ (fun h => e h.symm)]
          | some om =>
            obtain ⟨hvm, hsep, hvo, hap⟩ := mergeReady_maps w r j m om hr hj hjr h
            obtain ⟨mem1, m1, h1, hlen, hv1, hview, hsame⟩ :=
              Merge_maps w r j m om hr hj hvm hsep hvo hap
            have hr1 : (w.ledgers.set r (some m1)).get? r = some (some m1) :=
              get_set_self _ r _ _ hr
            refine ⟨_, h1, ?_⟩
            intro w1a hs
            · have hj1 : (w.ledgers.set r (some m1)).get? j = some (some om) := by
                rw [get_set_other _ r j _ (fun e => hjr e.symm), hj]
              exact Merge_settled_upToOrder ⟨mem1, w.ledgers.set r (some m1), w.grow⟩ w1a r j m1 om
                hr1 hj1
                (validMap_of_lookup mem1 om fun k s hs =>
                  validSlice_mono _ _ s (validMap_lookup _ _ hvo k s hs) hlen)
                (by
                  intro e he
                  have hv := hview e.1
                  rw [lookup_of_entry om e he] at hv
                  simp only [] at hv
                  cases hc : m1.lookup e.1 with
                  | none =>
                    rw [hc] at hv
                    exact Option.noConfusion hv
                  | some cur =>
                    rw [hc] at hv
                    refine ⟨cur, rfl, ?_⟩
                    intro x hx
                    have hcur : read mem1 cur =
                        mergeVal ((m.lookup e.1).map (read w.mem)) (read w.mem e.2) :=
                      Option.some.inj hv
                    show x ∈ read mem1 cur
                    rw [hcur, mem_mergeVal]
                    right
                    rw [← hsame e he]
                    exact hx) hs

theorem Merge_idempotent_witness :
    sampleWorld.mergeReady 0 (some 1) = true ∧
      ∃ w1, Merge sampleWorld 0 (some 1) = some w1 ∧
        (∃ w2, Merge w1 0 (some 1) = some w2 ∧ w2.mem = w1.mem ∧
          ∀ r1 k, w2.lookup r1 k = w1.lookup r1 k) ∧
        ∀ w1a, w1.sameUpToOrder w1a →
          ∃ w2, Merge w1a 0 (some 1) = some w2 ∧ w2.mem = w1.mem ∧
            ∀ r1 k, w2.lookup r1 k = w1.lookup r1 k :=
  ⟨by decide, Merge_idempotent sampleWorld 0 (some 1) (by decide)⟩


/-- C7 fails as stated: on the world `nestedKinds`, whose ledger lists no id
twice under a kind but holds `k1` and `k2` in one array, `Remove("k1", "a")`
returns true and the other kind `k2`, which listed `a, b, c`, lists
`b, b, c`. -/
theorem Remove_changes_other_kind_on_shared_array :
    nestedKinds.wellFormed 0 = true ∧
    (nestedKinds.lookup 0 "k1", nestedKinds.lookup 0 "k2") =
      (some ["a", "b"], some ["a", "b", "c"]) ∧
    (Remove nestedKinds 0 "k1" "a").map
      (fun p => (p.2, p.1.lookup 0 "k1", p.1.lookup 0 "k2")) =
      some (true, some ["b"], some ["b", "b", "c"]) := by
  decide

/-- C7, amended: `Remove` of something present. For every ledger `r` whose
list under `k` holds no id twice and lists `needle`, `Remove(k, needle)`
returns true; afterwards `needle` is not listed under `k`, the list under `k`
is the previous one without `needle` (the other ids in their previous order),
and `k` has no entry exactly when `needle` was its only id. When the lists of
the ledger occupy pairwise different arrays, every other kind has its previous
entry. The condition `wellFormed` holds of every slice that the runtime
builds. -/
theorem Remove_present (w : World) (r : Nat) (k needle : String)
    (h : w.wellFormed r = true) (hnd : (w.ids r k).Nodup) (hin : needle ∈ w.ids r k) :
    ∃ w1, Remove w r k needle = some (w1, true) ∧
      needle ∉ w1.ids r k ∧
      w1.ids r k = (w.ids r k).filter (fun x => x ≠ needle) ∧
      (w1.lookup r k = none ↔ w.ids r k = [needle]) ∧
      (w.ownsArrays r = true → ∀ k1, k1 ≠ k → w1.lookup r k1 = w.lookup r k1) := by
  obtain ⟨w1, h1, hk, hother⟩ := Remove_store w r k needle h hin
  have hidx : w1.ids r k = (w.ids r k).erase needle := by
    rw [World.ids, hk]
    by_cases he : (w.ids r k).erase needle = []
    · simp [he]
    · simp [he]
  have hfilter : (w.ids r k).erase needle = (w.ids r k).filter (fun x => x ≠ needle) := by
    rw [hnd.erase_eq_filter]
    apply List.filter_congr
    intro x _
    by_cases hx : x = needle
    · simp [hx]
    · simp [hx]
  refine ⟨w1, h1, ?_, ?_, ?_, hother⟩
  · rw [hidx]
    exact fun hm => (hnd.mem_erase_iff.1 hm).1 rfl
  · rw [hidx, hfilter]
  · rw [hk]
    constructor
    · intro h0
      have he : (w.ids r k).erase needle = [] := by
        by_contra hne
        rw [if_neg hne] at h0
        exact Option.noConfusion h0
      have hlen := List.length_erase_of_mem hin
      rw [he] at hlen
      cases hl : w.ids r k with
      | nil => rw [hl] at hin; simp at hin
      | cons x rest =>
        rw [hl] at hlen hin
        have hrest : rest = [] := by
          cases rest with
          | nil => rfl
          | cons y r2 => simp at hlen
        subst hrest
        have hx : needle = x := by simpa using hin
        rw [hx]
    · intro h0
      rw [h0]
      simp

theorem Remove_present_witness :
    (sampleWorld.wellFormed 0 = true ∧ (sampleWorld.ids 0 "image").Nodup ∧
      "img1" ∈ sampleWorld.ids 0 "image" ∧ sampleWorld.ownsArrays 0 = true) ∧
      ∃ w1, Remove sampleWorld 0 "image" "img1" = some (w1, true) ∧
        "img1" ∉ w1.ids 0 "image" ∧
        w1.ids 0 "image" = (sampleWorld.ids 0 "image").filter (fun x => x ≠ "img1") ∧
        (w1.lookup 0 "image" = none ↔ sampleWorld.ids 0 "image" = ["img1"]) ∧
        (sampleWorld.ownsArrays 0 = true →
          ∀ k1, k1 ≠ "image" → w1.lookup 0 k1 = sampleWorld.lookup 0 k1) :=
  ⟨⟨by decide, by decide, by decide, by decide⟩,
    Remove_present sampleWorld 0 "image" "img1" (by decide) (by decide) (by decide)⟩

/-- C16 fails as stated: on the world `nestedKinds`, which holds `k1` and `k2`
in one array, `x` is not listed under `k1`, and after `Add("k1", "x")` the
other kind `k2`, which listed `a, b, c`, lists `a, b, x`. -/
theorem Add_changes_other_kind_on_shared_array :
    nestedKinds.wellFormed 0 = true ∧
    (nestedKinds.lookup 0 "k1", nestedKinds.lookup 0 "k2") =
      (some ["a", "b"], some ["a", "b", "c"]) ∧
    (Add nestedKinds 0 "k1" "x").map (fun w => (w.lookup 0 "k1", w.lookup 0 "k2")) =
      some (some ["a", "b", "x"], some ["a", "b", "x"]) := by
  decide

/-- C16, amended: `Add` inserts at the end. For every ledger `r`, also one
whose map is nil, and all `k`, `v` with `v` not listed under `k`, `Add(k, v)`
returns; afterwards the map is not nil and the list under `k` is the previous
list for `k` (empty when `k` had no entry) followed by `v`. When the lists of
the ledger occupy pairwise different arrays, every other kind has exactly its
previous entry. The condition `wellFormed` holds of every slice that the
runtime builds. -/
theorem Add_appends (w : World) (r : Nat) (k v : String) (h : w.wellFormed r = true)
    (hv : v ∉ w.ids r k) :
    ∃ w1, Add w r k v = some w1 ∧
      (∃ m1, w1.ledgers.get? r = some (some m1)) ∧
      w1.lookup r k = some (w.ids r k ++ [v]) ∧
      (w.ownsArrays r = true → ∀ k1, k1 ≠ k → w1.lookup r k1 = w.lookup r k1) := by
  obtain ⟨w1, h1, hk, hother⟩ := Add_store w r k v h hv
  refine ⟨w1, h1, ?_, hk, hother⟩
  cases hr : w1.ledgers.get? r with
  | none =>
    simp only [World.lookup, hr] at hk
    exact Option.noConfusion hk
  | some res =>
    cases res with
    | none =>
      rw [lookup_of_nil_map w1 r hr] at hk
      exact Option.noConfusion hk
    | some m1 => exact ⟨m1, rfl⟩

theorem Add_appends_witness :
    ((sampleWorld.wellFormed 0 = true ∧ "img3" ∉ sampleWorld.ids 0 "image" ∧
        sampleWorld.ownsArrays 0 = true) ∧
      ∃ w1, Add sampleWorld 0 "image" "img3" = some w1 ∧
        (∃ m1, w1.ledgers.get? 0 = some (some m1)) ∧
        w1.lookup 0 "image" = some (sampleWorld.ids 0 "image" ++ ["img3"]) ∧
        (sampleWorld.ownsArrays 0 = true →
          ∀ k1, k1 ≠ "image" → w1.lookup 0 k1 = sampleWorld.lookup 0 k1)) ∧
    ((sampleWorld.wellFormed 2 = true ∧ "img3" ∉ sampleWorld.ids 2 "image" ∧
        sampleWorld.ownsArrays 2 = true) ∧
      ∃ w1, Add sampleWorld 2 "image" "img3" = some w1 ∧
        (∃ m1, w1.ledgers.get? 2 = some (some m1)) ∧
        w1.lookup 2 "image" = some (sampleWorld.ids 2 "image" ++ ["img3"]) ∧
        (sampleWorld.ownsArrays 2 = true →
          ∀ k1, k1 ≠ "image" → w1.lookup 2 k1 = sampleWorld.lookup 2 k1)) :=
  ⟨⟨⟨by decide, by decide, by decide⟩,
      Add_appends sampleWorld 0 "image" "img3" (by decide) (by decide)⟩,
    ⟨by decide, by decide, by decide⟩,
      Add_appends sampleWorld 2 "image" "img3" (by decide) (by decide)⟩

/-- C18 fails as stated, in two ways. On the world `sharedKinds`, where two
kinds of the receiver lie in one array, the receiver lists `b` under `k2`
before `r.Merge(o)` and `x, b` after it, so the previous list does not start
the new one. On the world `sharedLedgers`, where the lists of the receiver lie
in different arrays and one of these holds a list of `o`, the receiver lists
`c` under `k2` and `o` lists `b`, and after `r.Merge(o)` the receiver lists
`c, x`: the id appended is not the id that `o` listed. -/
theorem Merge_breaks_order_on_shared_array :
    (sharedKinds.lookup 0 "k2" = some ["b"] ∧
      (Merge sharedKinds 0 (some 1)).map (fun w => (w.lookup 0 "k1", w.lookup 0 "k2")) =
        some (some ["a", "x"], some ["x", "b"]) ∧
      ¬ (["b"] <+: ["x", "b"])) ∧
    (sharedLedgers.ownsArrays 0 = true ∧
      (sharedLedgers.lookup 0 "k2", sharedLedgers.lookup 1 "k2") =
        (some ["c"], some ["b"]) ∧
      (Merge sharedLedgers 0 (some 1)).map (fun w => (w.lookup 0 "k1", w.lookup 0 "k2")) =
        some (some ["a", "x"], some ["c", "x"])) :=
  ⟨⟨by decide, by decide, by decide⟩, by decide, by decide, by decide⟩

/-- C18, amended: `Merge` preserves discovery order within a kind, on a
receiver whose lists occupy pairwise different arrays none of which holds a
list of the other ledger. For every ledger `r` with a non-nil map whose lists
occupy pairwise different arrays and every ledger pointer `o` that is nil, or
`r` itself, or a ledger none of whose lists lies in an array of a list of `r`
(this is `mergeReady`), `r.Merge(o)` returns; under every kind for which `r`
listed at least one id the new list is the previous list followed by the ids
of the list of `o` that `r` did not list, each once, in the order of their
first occurrence in `o`; under every kind for which `r` listed nothing the new
list is the list of `o`. -/
theorem Merge_keeps_order (w : World) (r : Nat) (o : Option Nat)
    (h : w.mergeReady r o = true) :
    ∃ w1, Merge w r o = some w1 ∧
      ∀ k, (w.ids r k ≠ [] → w1.ids r k = w.ids r k ++
          firstOccurrences ((w.idsOf o k).filter (fun x => decide (x ∉ w.ids r k)))) ∧
        (w.ids r k = [] → w1.ids r k = w.idsOf o k) := by
  obtain ⟨w1, h1, h1k⟩ := Merge_store w r o h
  refine ⟨w1, h1, ?_⟩
  intro k
  have hk := h1k k
  unfold World.idsOf
  cases ho : w.lookupOf o k with
  | none =>
    rw [ho] at hk
    have hidx : w1.ids r k = w.ids r k := by simp only [World.ids, hk]
    constructor
    · intro _
      simp [hidx, firstOccurrences]
    · intro h0
      simp [hidx, h0]
  | some v =>
    rw [ho] at hk
    have hidx : w1.ids r k = mergeVal (w.lookup r k) v := by
      simp only [World.ids, hk, Option.getD_some]
    constructor
    · intro hne
      have hlen : ¬ ((w.lookup r k).getD []).length = 0 :=
        fun h0 => hne (List.length_eq_zero.1 h0)
      rw [hidx, mergeVal, if_neg hlen, Option.getD_some]
      exact mergeList_eq _ _
    · intro h0
      have hlen : ((w.lookup r k).getD []).length = 0 := by
        show (w.ids r k).length = 0
        rw [h0]; rfl
      rw [hidx, mergeVal, if_pos hlen, Option.getD_some]

theorem Merge_keeps_order_witness :
    sampleWorld.mergeReady 0 (some 1) = true ∧
      ∃ w1, Merge sampleWorld 0 (some 1) = some w1 ∧
        ∀ k, (sampleWorld.ids 0 k ≠ [] → w1.ids 0 k = sampleWorld.ids 0 k ++
            firstOccurrences ((sampleWorld.idsOf (some 1) k).filter
              (fun x => decide (x ∉ sampleWorld.ids 0 k)))) ∧
          (sampleWorld.ids 0 k = [] → w1.ids 0 k = sampleWorld.idsOf (some 1) k) :=
  ⟨by decide, Merge_keeps_order sampleWorld 0 (some 1) (by decide)⟩


/-- C19 fails as stated, in two ways. The worlds `sharedKinds` and
`sharedKindsRev` differ only in the order in which the map of ledger 1 yields
its two kinds, and `r.Merge(o)` leaves the receiver, two kinds of which lie in
one array, with `x, b` under `k2` in the first and with `x` under `k2` in the
second. The worlds `sharedLedgers` and `sharedLedgersRev` differ in the same
way; there the lists of the receiver lie in different arrays and one of these
holds a list of `o`, and `r.Merge(o)` leaves the receiver with `c, x` under
`k2` in the first and with `c, b` in the second. -/
theorem Merge_depends_on_order_on_shared_array :
    (sharedKinds.sameUpToOrder sharedKindsRev ∧
      (Merge sharedKinds 0 (some 1)).map (fun w => (w.lookup 0 "k1", w.lookup 0 "k2")) =
        some (some ["a", "x"], some ["x", "b"]) ∧
      (Merge sharedKindsRev 0 (some 1)).map (fun w => (w.lookup 0 "k1", w.lookup 0 "k2")) =
        some (some ["a", "x"], some ["x"])) ∧
    (sharedLedgers.sameUpToOrder sharedLedgersRev ∧
      sharedLedgers.ownsArrays 0 = true ∧
      (Merge sharedLedgers 0 (some 1)).map (fun w => (w.lookup 0 "k1", w.lookup 0 "k2")) =
        some (some ["a", "x"], some ["c", "x"]) ∧
      (Merge sharedLedgersRev 0 (some 1)).map (fun w => (w.lookup 0 "k1", w.lookup 0 "k2")) =
        some (some ["a", "x"], some ["c", "b"])) := by
  refine ⟨⟨⟨rfl, rfl, fun i => ?_⟩, by decide, by decide⟩,
    ⟨rfl, rfl, fun i => ?_⟩, by decide, by decide, by decide⟩
  · match i with
    | 0 => exact List.Perm.refl _
    | 1 =>
      show List.Perm _ _
      decide
    | n + 2 => exact True.intro
  · match i with
    | 0 => exact List.Perm.refl _
    | 1 =>
      show List.Perm _ _
      decide
    | n + 2 => exact True.intro

/-- The worlds `sampleWorld` and `sampleWorldRev` differ in the order of the
entries of ledger 1 alone. -/
theorem sampleWorld_sameUpToOrder : sampleWorld.sameUpToOrder sampleWorldRev := by
  refine ⟨rfl, rfl, fun i => ?_⟩
  match i with
  | 0 => exact List.Perm.refl _
  | 1 =>
    show List.Perm _ _
    decide
  | 2 => exact True.intro
  | n + 3 => exact True.intro

/-- C19, amended: `Merge` is deterministic despite unordered map iteration, on
a receiver whose lists occupy pairwise different arrays none of which holds a
list of the other ledger. Two worlds that differ at most in the order in which
the maps yield their kinds are two runs of the loop in two orders: for every
ledger `r` with a non-nil map whose lists occupy pairwise different arrays and
every ledger pointer `o` that is nil, or `r` itself, or a ledger none of whose
lists lies in an array of a list of `r` (this is `mergeReady`), both calls
return and leave `r` with the same entry under every kind. The reason is
stated with it: on such a receiver one round of the loop, for kind `k`,
returns, puts under `k` a list computed from the previous list of `k` and the
visited list alone, and leaves the list of every other kind as it was. -/
theorem Merge_order_independent (w w1 : World) (r : Nat) (o : Option Nat)
    (hs : w.sameUpToOrder w1) (h : w.mergeReady r o = true) :
    (∃ v v1, Merge w r o = some v ∧ Merge w1 r o = some v1 ∧
        ∀ k, v.lookup r k = v1.lookup r k) ∧
      ∀ (g : Nat → Nat → Nat) (mem : Memory) (mp : SliceMap) (k : String) (s : Slice),
        validMap mem mp = true → separate mp = true → validSlice mem s = true →
        (∀ cur, mp.lookup k = some cur → disjoint cur s = true) →
        ∃ mem1 mp1, mergeKind g (mem, some mp) k s = some (mem1, some mp1) ∧
          (mp1.lookup k).map (read mem1) =
            some (mergeVal ((mp.lookup k).map (read mem)) (read mem s)) ∧
          ∀ k1, k1 ≠ k → (mp1.lookup k1).map (read mem1) = (mp.lookup k1).map (read mem) := by
  constructor
  · obtain ⟨v, hv, hvk⟩ := Merge_store w r o h
    obtain ⟨v1, hv1, hv1k⟩ := Merge_store w1 r o (mergeReady_upToOrder w w1 hs r o h)
    refine ⟨v, v1, hv, hv1, ?_⟩
    intro k
    have ho : w1.lookupOf o k = w.lookupOf o k := by
      cases o with
      | none => rfl
      | some j => exact sameUpToOrder_lookup w w1 hs j k
    rw [hvk k, hv1k k, ho, sameUpToOrder_lookup w w1 hs r k]
  · intro g mem mp k s hvm hsep hvv hd
    obtain ⟨mem1, mp1, s1, h1, _, hs1, _, hr1, _, hoth, hframe⟩ :=
      mergeKind_store g mem mp k s (fun cur hc => validMap_lookup _ _ hvm k cur hc) hvv hd
    refine ⟨mem1, mp1, h1, ?_, ?_⟩
    · rw [hs1, Option.map_some', hr1]
    · intro k1 hk
      rw [hoth k1 hk]
      cases hl : mp.lookup k1 with
      | none => rfl
      | some t =>
        simp only [Option.map_some']
        rw [hframe t (validMap_lookup _ _ hvm k1 t hl)
          (fun cur hc => separate_lookup mp hsep k cur k1 t hc hl hk)]

theorem Merge_order_independent_witness :
    (sampleWorld.sameUpToOrder sampleWorldRev ∧ sampleWorld.mergeReady 0 (some 1) = true) ∧
    ((∃ v v1, Merge sampleWorld 0 (some 1) = some v ∧
        Merge sampleWorldRev 0 (some 1) = some v1 ∧
        ∀ k, v.lookup 0 k = v1.lookup 0 k) ∧
      ∀ (g : Nat → Nat → Nat) (mem : Memory) (mp : SliceMap) (k : String) (s : Slice),
        validMap mem mp = true → separate mp = true → validSlice mem s = true →
        (∀ cur, mp.lookup k = some cur → disjoint cur s = true) →
        ∃ mem1 mp1, mergeKind g (mem, some mp) k s = some (mem1, some mp1) ∧
          (mp1.lookup k).map (read mem1) =
            some (mergeVal ((mp.lookup k).map (read mem)) (read mem s)) ∧
          ∀ k1, k1 ≠ k → (mp1.lookup k1).map (read mem1) = (mp.lookup k1).map (read mem)) :=
  ⟨⟨sampleWorld_sameUpToOrder, by decide⟩,
    Merge_order_independent sampleWorld sampleWorldRev 0 (some 1)
      sampleWorld_sameUpToOrder (by decide)⟩

/-- C2 fails on the code: an id of `C` is lost. The calls `sharedByMerge` use
the API alone and end with `C` (ledger 0) listing `img1, img2, img3`, `A`
(ledger 1) listing `img1, img2` and `B` (ledger 2) listing `img4`, no id twice
anywhere. `A` got its list by `A.Merge(C)`, which stored the slice of `C`
itself, so `A.Merge(B)` appends `img4` inside the array of `C`, over `img3`;
`A.Merge(C)` then finds nothing to add, and `A` lists `img1, img2, img4`:
`img3`, which `C` listed, is not listed in `A`. -/
theorem Merge_loses_id_of_shared_ledger :
    (run sharedByMerge).map
      (fun w => (w.lookup 0 "image", w.lookup 1 "image", w.lookup 2 "image")) =
      some (some ["img1", "img2", "img3"], some ["img1", "img2"], some ["img4"]) ∧
    (run (sharedByMerge ++ [Call.merge 1 (some 2)])).map
      (fun w => (w.lookup 0 "image", w.lookup 1 "image", w.lookup 2 "image")) =
      some (some ["img1", "img2", "img4"], some ["img1", "img2", "img4"], some ["img4"]) ∧
    (run (sharedByMerge ++ [Call.merge 1 (some 2), Call.merge 1 (some 0)])).map
      (fun w => (w.lookup 0 "image", w.lookup 1 "image", w.lookup 2 "image")) =
      some (some ["img1", "img2", "img4"], some ["img1", "img2", "img4"], some ["img4"]) :=
  ⟨by decide, by decide, by decide⟩

/-- C3 fails on the code: the two orders end with different sets of ids. After
the calls `sharedByMerge`, which use the API alone, `X` is ledger 1 (listing
`img1, img2` in the array of ledger 0), `A` is ledger 2 (`img4`) and `B` is
ledger 0 (`img1, img2, img3`). `X.Merge(A); X.Merge(B)` leaves `X` with
`img1, img2, img4`, and `X.Merge(B); X.Merge(A)` leaves it with
`img1, img2, img3, img4`. -/
theorem Merge_order_of_calls_changes_ids :
    (run (sharedByMerge ++ [Call.merge 1 (some 2), Call.merge 1 (some 0)])).map
      (fun w => w.lookup 1 "image") = some (some ["img1", "img2", "img4"]) ∧
    (run (sharedByMerge ++ [Call.merge 1 (some 0), Call.merge 1 (some 2)])).map
      (fun w => w.lookup 1 "image") = some (some ["img1", "img2", "img3", "img4"]) :=
  ⟨by decide, by decide⟩

end Driver.Store
